import Mathlib

/-!
# Verification of the occupation-browser core

A shallow embedding of the two pieces of core logic in the repository:

* `organizeOccupations` — the taxonomy builder (`src/lib/occupations.ts`,
  concatenated into `src/components/search-results.tsx` in this snapshot),
  which turns a flat list of coded occupation records into a four-level
  nested hierarchy; and
* `EnhancedSearchEngine` — the search/ranking engine (`src/lib/search.ts`),
  with its facet filter, relevance booster, breadcrumb generator and the
  empty-query browse path.

Modelling conventions:

* JavaScript strings are Lean `String`s; `s.substring(0, n)` is
  `⟨s.data.take n⟩`, `s[0]` (as a one-character string, `""` standing for
  `undefined`) is `⟨s.data.take 1⟩`, `s.split('.')[0]` is
  `⟨s.data.takeWhile (· ≠ '.')⟩`.
* `String.prototype.localeCompare` is modelled as code-point lexicographic
  comparison (Lean's `String` order); on the ASCII digit code strings the
  taxonomy sorts, default-locale collation agrees with code-point order.
* `Array.prototype.sort`, which ECMAScript requires to be stable, is
  modelled by the stable `List.insertionSort`.
* JavaScript numbers carrying relevance scores are modelled as exact
  rationals (`Rat`).
* Exceptions are modelled with `Option`: `none` is a thrown exception.
* The fuzzy-search pass (`fuse.js`, an external library, not code of this
  repository) is a function parameter of `search`.
-/

/-- The flat record shape produced by the CSV loader (`src/lib/types.ts`,
`Occupation`); every field defaults to the empty string. -/
structure Occupation where
  userLink : String
  keyId : String
  iscoGroupCode : String
  code : String
  preferredLabel : String
  exampleAlternateDesignation : String
  coreDescription : String
  iscoTaxIncluded : String
  definition : String
  scopeNote : String
  regulatedProfessionNote : String
  occupationType : String
  status : String
deriving Repr, DecidableEq

/-- An occupation record whose fields are all empty. -/
def blankOccupation : Occupation :=
  ⟨"", "", "", "", "", "", "", "", "", "", "", "", ""⟩

/-- A record with the given `code` and `preferredLabel`, other fields empty. -/
def occWith (code preferredLabel : String) : Occupation :=
  { blankOccupation with code := code, preferredLabel := preferredLabel }

/-- The tagged union `OccupationGroup | Occupation` from `src/lib/types.ts`:
a child of a group is either a nested `OccupationGroup` (`code`, `name`,
`children`) or a leaf `Occupation` record.  A list of `Child` values is an
`OccupationGroup`'s `children` array. -/
inductive Child where
  | group (code : String) (name : String) (children : List Child) : Child
  | occ (o : Occupation) : Child
deriving Repr

/-- `code.split('.')[0]`: the part of a code before the first dot. -/
def mainCodeOf (code : String) : String :=
  ⟨code.data.takeWhile (· ≠ '.')⟩

/-- `s.substring(0, n)`. -/
def jsSubstringTo (s : String) (n : Nat) : String :=
  ⟨s.data.take n⟩

/-- `s[0]` as a string (`""` models `undefined` for the empty string). -/
def jsCharAt0 (s : String) : String :=
  ⟨s.data.take 1⟩

/-- `s.toLowerCase()`. -/
def jsToLower (s : String) : String :=
  ⟨s.data.map Char.toLower⟩

/-- `s.trim()`: strip whitespace from both ends. -/
def jsTrim (s : String) : String :=
  ⟨((s.data.dropWhile Char.isWhitespace).reverse.dropWhile Char.isWhitespace).reverse⟩

/-- Does `sub` occur contiguously in the list (at this position or any
later one)? -/
def containsSeq (sub : List Char) : List Char → Bool
  | [] => sub.isEmpty
  | c :: rest => sub.isPrefixOf (c :: rest) || containsSeq sub rest

/-- `s.includes(sub)`: `sub` occurs contiguously in `s`. -/
def jsIncludes (s sub : String) : Bool :=
  containsSeq sub.data s.data

/-- The sort key used by `sortChildren`: `'code' in a ? a.code : a.code` —
the `code` field of either variant of the union. -/
def childCode : Child → String
  | .group c _ _ => c
  | .occ o => o.code

/-- The comparator `(a, b) => aCode.localeCompare(bCode)` of `sortChildren`
(and of the root sort in `organizeOccupations`), modelled as code-point
lexicographic order on the code keys (on the ASCII digit codes being
sorted, default-locale collation agrees with code-point order). -/
def childLe (a b : Child) : Prop := (childCode a).data ≤ (childCode b).data

instance : DecidableRel childLe := fun a b =>
  inferInstanceAs (Decidable ((childCode a).data ≤ (childCode b).data))

instance : IsTotal Child childLe := ⟨fun _ _ => le_total _ _⟩

instance : IsTrans Child childLe := ⟨fun _ _ _ => le_trans⟩

namespace Occupations

/-- `getMajorGroupName` from `src/lib/occupations.ts`. -/
def getMajorGroupName (code : String) : String :=
  match code with
  | "0" => "Armed forces occupations"
  | "1" => "Managers"
  | "2" => "Professionals"
  | "3" => "Technicians and associate professionals"
  | "4" => "Clerical support workers"
  | "5" => "Service and sales workers"
  | "6" => "Skilled agricultural, forestry and fishery workers"
  | "7" => "Craft and related trades workers"
  | "8" => "Plant and machine operators, and assemblers"
  | "9" => "Elementary occupations"
  | _ => "Group " ++ code

/-- `getSubMajorGroupName` from `src/lib/occupations.ts`. -/
def getSubMajorGroupName (code : String) : String :=
  match code with
  | "11" => "Chief executives, senior officials and legislators"
  | "12" => "Administrative and commercial managers"
  | "13" => "Production and specialised services managers"
  | "14" => "Hospitality, retail and other services managers"
  | "21" => "Science and engineering professionals"
  | "22" => "Health professionals"
  | "23" => "Teaching professionals"
  | "24" => "Business and administration professionals"
  | "25" => "Information and communications technology professionals"
  | "26" => "Legal, social and cultural professionals"
  | "31" => "Science and engineering associate professionals"
  | "32" => "Health associate professionals"
  | "33" => "Business and administration associate professionals"
  | "34" => "Legal, social, cultural and related associate professionals"
  | "35" => "Information and communications technicians"
  | "41" => "General and keyboard clerks"
  | "42" => "Customer services clerks"
  | "43" => "Numerical and material recording clerks"
  | "44" => "Other clerical support workers"
  | "51" => "Personal service workers"
  | "52" => "Sales workers"
  | "53" => "Personal care workers"
  | "54" => "Protective services workers"
  | "61" => "Market-oriented skilled agricultural workers"
  | "62" => "Market-oriented skilled forestry, fishery and hunting workers"
  | "63" => "Subsistence farmers, fishers, hunters and gatherers"
  | "71" => "Building and related trades workers, excluding electricians"
  | "72" => "Metal, machinery and related trades workers"
  | "73" => "Handicraft and printing workers"
  | "74" => "Electrical and electronic trades workers"
  | "75" => "Food processing, wood working, garment and other craft workers"
  | "81" => "Stationary plant and machine operators"
  | "82" => "Assemblers"
  | "83" => "Drivers and mobile plant operators"
  | "91" => "Cleaners and helpers"
  | "92" => "Agricultural, forestry and fishery labourers"
  | "93" => "Labourers in mining, construction, manufacturing and transport"
  | "94" => "Food preparation assistants"
  | "95" => "Street and related sales and service workers"
  | "96" => "Refuse workers and other elementary workers"
  | _ => "Group " ++ code

/-- `getMinorGroupName` from `src/lib/occupations.ts` (the full table used
by the taxonomy builder). -/
def getMinorGroupName (code : String) : String :=
  match code with
  | "111" => "Legislators and senior officials"
  | "112" => "Managing directors and chief executives"
  | "121" => "Business services and administration managers"
  | "122" => "Sales, marketing and development managers"
  | "131" => "Production managers in agriculture, forestry and fisheries"
  | "132" => "Manufacturing, mining, construction, and distribution managers"
  | "133" => "Information and communications technology service managers"
  | "134" => "Professional services managers"
  | "141" => "Hotel and restaurant managers"
  | "142" => "Retail and wholesale trade managers"
  | "143" => "Other services managers"
  | "211" => "Physical and earth science professionals"
  | "212" => "Mathematicians, actuaries and statisticians"
  | "213" => "Life science professionals"
  | "214" => "Engineering professionals (excluding electrotechnology)"
  | "215" => "Electrotechnology engineers"
  | "216" => "Architects, planners, surveyors and designers"
  | "221" => "Medical doctors"
  | "222" => "Nursing and midwifery professionals"
  | "223" => "Traditional and complementary medicine professionals"
  | "224" => "Paramedical practitioners"
  | "225" => "Veterinarians"
  | "226" => "Other health professionals"
  | "231" => "University and higher education teachers"
  | "232" => "Vocational education teachers"
  | "233" => "Secondary education teachers"
  | "234" => "Primary school and early childhood teachers"
  | "235" => "Other teaching professionals"
  | "241" => "Finance professionals"
  | "242" => "Administration professionals"
  | "243" => "Sales, marketing and public relations professionals"
  | "251" => "Software and applications developers and analysts"
  | "252" => "Database and network professionals"
  | "261" => "Legal professionals"
  | "262" => "Librarians, archivists and curators"
  | "263" => "Social and religious professionals"
  | "264" => "Authors, journalists and linguists"
  | "265" => "Creative and performing artists"
  | "311" => "Physical and engineering science technicians"
  | "312" => "Mining, manufacturing and construction supervisors"
  | "313" => "Process control technicians"
  | "314" => "Life science technicians and related associate professionals"
  | "315" => "Ship and aircraft controllers and technicians"
  | "321" => "Medical and pharmaceutical technicians"
  | "322" => "Nursing and midwifery associate professionals"
  | "323" => "Traditional and complementary medicine associate professionals"
  | "324" => "Veterinary technicians and assistants"
  | "325" => "Other health associate professionals"
  | "331" => "Financial and mathematical associate professionals"
  | "332" => "Sales and purchasing agents and brokers"
  | "333" => "Business services agents"
  | "334" => "Administrative and specialised secretaries"
  | "335" => "Regulatory government associate professionals"
  | "341" => "Legal, social and religious associate professionals"
  | "342" => "Sports and fitness workers"
  | "343" => "Artistic, cultural and culinary associate professionals"
  | "351" => "Information and communications technology operations technicians"
  | "352" => "Telecommunications and broadcasting technicians"
  | _ => "Group " ++ code

/-- `getUnitGroupName` from `src/lib/occupations.ts`. -/
def getUnitGroupName (code : String) : String :=
  match code with
  | "1111" => "Legislators"
  | "1112" => "Senior government officials"
  | "1113" => "Traditional chiefs and heads of village"
  | "1114" => "Senior officials of special-interest organisations"
  | "1120" => "Managing directors and chief executives"
  | "1211" => "Finance managers"
  | "1212" => "Human resource managers"
  | "1213" => "Policy and planning managers"
  | "1219" => "Business services and administration managers not elsewhere classified"
  | "1221" => "Sales and marketing managers"
  | "1222" => "Advertising and public relations managers"
  | "1223" => "Research and development managers"
  | "1311" => "Agricultural and forestry production managers"
  | "1312" => "Aquaculture and fisheries production managers"
  | "1321" => "Manufacturing managers"
  | "1322" => "Mining managers"
  | "1323" => "Construction managers"
  | "1324" => "Supply, distribution and related managers"
  | "1330" => "Information and communications technology service managers"
  | "1341" => "Child care services managers"
  | "1342" => "Health services managers"
  | "1343" => "Aged care services managers"
  | "1344" => "Social welfare managers"
  | "1345" => "Education managers"
  | "1346" => "Financial and insurance services branch managers"
  | "1349" => "Professional services managers not elsewhere classified"
  | "1411" => "Hotel managers"
  | "1412" => "Restaurant managers"
  | "1420" => "Retail and wholesale trade managers"
  | "1431" => "Sports, recreation and cultural centre managers"
  | "1439" => "Services managers not elsewhere classified"
  | "2111" => "Physicists and astronomers"
  | "2112" => "Meteorologists"
  | "2113" => "Chemists"
  | "2114" => "Geologists and geophysicists"
  | "2120" => "Mathematicians, actuaries and statisticians"
  | "2131" => "Biologists, botanists, zoologists and related professionals"
  | "2132" => "Farming, forestry and fisheries advisers"
  | "2133" => "Environmental protection professionals"
  | "2141" => "Industrial and production engineers"
  | "2142" => "Civil engineers"
  | "2143" => "Environmental engineers"
  | "2144" => "Mechanical engineers"
  | "2145" => "Chemical engineers"
  | "2146" => "Mining engineers, metallurgists and related professionals"
  | "2149" => "Engineering professionals not elsewhere classified"
  | "2151" => "Electrical engineers"
  | "2152" => "Electronics engineers"
  | "2153" => "Telecommunications engineers"
  | "2161" => "Building architects"
  | "2162" => "Landscape architects"
  | "2163" => "Product and garment designers"
  | "2164" => "Town and traffic planners"
  | "2165" => "Cartographers and surveyors"
  | "2166" => "Graphic and multimedia designers"
  | _ => "Group " ++ code

end Occupations

/-- Does the children list contain an `OccupationGroup` child with this
code?  (The `find` test `typeof child === 'object' && 'children' in child
&& child.code === code` of `organizeOccupations`.) -/
def hasGroup (cs : List Child) (code : String) : Bool :=
  cs.any fun ch =>
    match ch with
    | .group c _ _ => c == code
    | .occ _ => false

/-- Apply `f` to the children of the first `OccupationGroup` child whose
code is `code`, leaving everything else unchanged.  This models the
in-place mutation of the group object that `organizeOccupations` obtains
from `find`. -/
def updateFirstGroup (code : String) (f : List Child → List Child) :
    List Child → List Child
  | [] => []
  | ch :: rest =>
    match ch with
    | .group c n gcs =>
      if c == code then .group c n (f gcs) :: rest
      else ch :: updateFirstGroup code f rest
    | .occ o => .occ o :: updateFirstGroup code f rest

/-- The find-or-create-then-extend pattern of `organizeOccupations`: if a
group child with code `code` exists, extend its children with `f`;
otherwise push a fresh group `{code, name, children: f []}` at the end.
(In the source the group is created first with `children: []` and then
extended through the same reference, which is the same thing.) -/
def upsertGroup (cs : List Child) (code name : String)
    (f : List Child → List Child) : List Child :=
  if hasGroup cs code then updateFirstGroup code f cs
  else cs ++ [.group code name (f [])]

/-- One iteration of the `occupations.forEach` loop of
`organizeOccupations` (`src/lib/occupations.ts`): place one record into
the accumulated root-group list.  The root list models the
`Map<string, OccupationGroup>` keyed by major-group code (insertion
order, unique keys). -/
def insertOccupation (roots : List Child) (occupation : Occupation) :
    List Child :=
  let code := occupation.code
  if code == "" then roots
  else
    let mainCode := mainCodeOf code
    if mainCode == "" then roots
    else
      let majorGroup := jsCharAt0 mainCode
      let subMajorGroup := jsSubstringTo mainCode 2
      let minorGroup := jsSubstringTo mainCode 3
      let unitGroup := mainCode
      upsertGroup roots majorGroup (Occupations.getMajorGroupName majorGroup)
        fun majorChildren =>
          if subMajorGroup.length == 2 then
            upsertGroup majorChildren subMajorGroup
              (Occupations.getSubMajorGroupName subMajorGroup) fun subChildren =>
                if minorGroup.length == 3 then
                  upsertGroup subChildren minorGroup
                    (Occupations.getMinorGroupName minorGroup) fun minorChildren =>
                      if unitGroup.length == 4 then
                        upsertGroup minorChildren unitGroup
                          (Occupations.getUnitGroupName unitGroup) fun unitChildren =>
                            unitChildren ++ [.occ occupation]
                      else minorChildren ++ [.occ occupation]
                else if unitGroup.length == 4 then
                  upsertGroup subChildren unitGroup
                    (Occupations.getUnitGroupName unitGroup) fun unitChildren =>
                      unitChildren ++ [.occ occupation]
                else subChildren ++ [.occ occupation]
          else majorChildren ++ [.occ occupation]

mutual

/-- `sortChildren` from `src/lib/occupations.ts`: stable-sort a group's
children by code key and recurse into each group child.  The source sorts
the children array first and then recurses (`forEach`); since the
recursion preserves every child's code key, the two orders produce the
same list (`sortChildren_group_norm` below), and the recursion is
performed first here so that the definition is structural. -/
def sortChildren : Child → Child
  | .group code name cs => .group code name ((sortChildList cs).insertionSort childLe)
  | .occ o => .occ o

/-- Recurse `sortChildren` over a children list; this is the
`group.children.forEach` recursion. -/
def sortChildList : List Child → List Child
  | [] => []
  | c :: cs => sortChildren c :: sortChildList cs

end

/-- `organizeOccupations` from `src/lib/occupations.ts` (the
`buildTaxonomy` operation of the spec): fold every record into the
root-group map, sort the roots by code, and recursively sort all
children. -/
def organizeOccupations (occupations : List Occupation) : List Child :=
  let groups := occupations.foldl insertOccupation []
  sortChildList (groups.insertionSort childLe)

/-- The root sort followed by the recursive `sortChildren` pass — the
final normalisation stage of `organizeOccupations`, applicable to any
children list. -/
def normChildren (cs : List Child) : List Child :=
  sortChildList (cs.insertionSort childLe)

mutual

/-- All `(parent group code, record)` placements of a subtree: each record
paired with the code of the group whose `children` array holds it
directly (`parent` is the code of the enclosing group). -/
def placements (parent : String) : Child → List (String × Occupation)
  | .group c _ cs => placementsL c cs
  | .occ o => [(parent, o)]

/-- `placements` over a children list. -/
def placementsL (parent : String) : List Child → List (String × Occupation)
  | [] => []
  | ch :: rest => placements parent ch ++ placementsL parent rest

end

/-- The codes of all records stored in a forest. -/
def recordCodes (cs : List Child) : List String :=
  (placementsL "" cs).map fun e => e.2.code

/-- Adjacent-pair sortedness of a children list under the `sortChildren`
comparator: `children[i].code <= children[i+1].code` for all `i`. -/
def chainLeB : List Child → Bool
  | [] => true
  | [_] => true
  | a :: b :: rest => decide (childLe a b) && chainLeB (b :: rest)

mutual

/-- Every group node of the subtree has an adjacent-pair sorted children
list. -/
def childSorted : Child → Bool
  | .group _ _ cs => chainLeB cs && childListSorted cs
  | .occ _ => true

/-- `childSorted` over a children list. -/
def childListSorted : List Child → Bool
  | [] => true
  | c :: cs => childSorted c && childListSorted cs

end

/-- `a` is a prefix of `b` (as strings). -/
def strPrefixB (a b : String) : Bool :=
  decide (a.data <+: b.data)

mutual

/-- All records of a subtree. -/
def subtreeOccs : Child → List Occupation
  | .group _ _ cs => subtreeOccsL cs
  | .occ o => [o]

/-- `subtreeOccs` over a children list. -/
def subtreeOccsL : List Child → List Occupation
  | [] => []
  | c :: cs => subtreeOccs c ++ subtreeOccsL cs

end

mutual

/-- Every group node's code is a prefix — a strict prefix when `strict`
(i.e. also different from the record's code) — of the code of every
record in the group's subtree. -/
def prefixInv (strict : Bool) : Child → Bool
  | .group c _ cs =>
    (subtreeOccsL cs).all
        (fun o => strPrefixB c o.code && (!strict || !(c == o.code)))
      && prefixInvL strict cs
  | .occ _ => true

/-- `prefixInv` over a children list. -/
def prefixInvL (strict : Bool) : List Child → Bool
  | [] => true
  | ch :: rest => prefixInv strict ch && prefixInvL strict rest

end

/-- Is a record with this `code` processed by `organizeOccupations` (both
the code and its pre-dot part non-empty)? -/
def insertedQ (code : String) : Bool :=
  !(code == "") && !(mainCodeOf code == "")

/-- The length of the code of the group under which `organizeOccupations`
files a record, read off the branch conditions: with `m` the pre-dot part
of the record's code, the record lands under the group with code
`m.take slot` where `slot` is `m.length` for `m.length ≤ 3`, the unit
level 4 for `m.length = 4`, and the minor level 3 for `m.length ≥ 5`. -/
def recordSlot (code : String) : Nat :=
  let m := mainCodeOf code
  if m.length ≤ 3 then m.length else if m.length = 4 then 4 else 3

/-- The code of the group under which `organizeOccupations` files a
record with this code. -/
def targetGroupCode (code : String) : String :=
  jsSubstringTo (mainCodeOf code) (recordSlot code)

mutual

/-- Shape invariant of the trees built by `organizeOccupations`, relative
to the code `p` of the enclosing group (`""` at the root): a group child
extends `p` by exactly one character, is dot-free and at most 4 long, and
its children satisfy the invariant recursively; a record child's pre-dot
code extends `p` and sits at its slot level `p.length`. -/
def WFChild (p : String) : Child → Prop
  | .group c _ cs =>
    c.data.length = p.data.length + 1 ∧ p.data <+: c.data ∧
      c.data.all (· ≠ '.') = true ∧ c.data.length ≤ 4 ∧ WFList c cs
  | .occ o =>
    p.data <+: (mainCodeOf o.code).data ∧ insertedQ o.code = true ∧
      recordSlot o.code = p.data.length

/-- `WFChild` over a children list, with uniqueness of sibling group
codes. -/
def WFList (p : String) : List Child → Prop
  | [] => True
  | ch :: rest =>
    WFChild p ch ∧
      (match ch with
        | .group c _ _ => hasGroup rest c = false
        | .occ _ => True) ∧
      WFList p rest

end

/-- The sorted-insertion variant of `upsertGroup`: instead of pushing a
freshly created group at the end, place it directly at its sorted
position.  On a sorted state this is where the final sort pass would have
put it. -/
def upsertGroupSorted (cs : List Child) (code name : String)
    (f : List Child → List Child) : List Child :=
  if hasGroup cs code then updateFirstGroup code f cs
  else List.orderedInsert childLe (.group code name (f [])) cs

/-- The sorted-insertion variant of `insertOccupation`: identical branch
structure, but every group creation and record push lands directly at its
sorted position.  Folding this over the records reproduces
`organizeOccupations` when all record codes are distinct. -/
def insertOccupationSorted (roots : List Child) (occupation : Occupation) :
    List Child :=
  let code := occupation.code
  if code == "" then roots
  else
    let mainCode := mainCodeOf code
    if mainCode == "" then roots
    else
      let majorGroup := jsCharAt0 mainCode
      let subMajorGroup := jsSubstringTo mainCode 2
      let minorGroup := jsSubstringTo mainCode 3
      let unitGroup := mainCode
      upsertGroupSorted roots majorGroup (Occupations.getMajorGroupName majorGroup)
        fun majorChildren =>
          if subMajorGroup.length == 2 then
            upsertGroupSorted majorChildren subMajorGroup
              (Occupations.getSubMajorGroupName subMajorGroup) fun subChildren =>
                if minorGroup.length == 3 then
                  upsertGroupSorted subChildren minorGroup
                    (Occupations.getMinorGroupName minorGroup) fun minorChildren =>
                      if unitGroup.length == 4 then
                        upsertGroupSorted minorChildren unitGroup
                          (Occupations.getUnitGroupName unitGroup) fun unitChildren =>
                            List.orderedInsert childLe (.occ occupation) unitChildren
                      else List.orderedInsert childLe (.occ occupation) minorChildren
                else if unitGroup.length == 4 then
                  upsertGroupSorted subChildren unitGroup
                    (Occupations.getUnitGroupName unitGroup) fun unitChildren =>
                      List.orderedInsert childLe (.occ occupation) unitChildren
                else List.orderedInsert childLe (.occ occupation) subChildren
          else List.orderedInsert childLe (.occ occupation) majorChildren

/-- One field match as carried by a `SearchResult`
(`src/lib/search.ts`): field name, field value and inclusive
`[start, end]` index pairs. -/
structure SearchMatch where
  key : String
  value : String
  indices : List (Nat × Nat)
deriving Repr, DecidableEq

/-- `SearchResult` from `src/lib/search.ts`: a record together with its
relevance `score`, its `matches` and a `breadcrumb`.  Scores are modelled
as exact rationals. -/
structure SearchResult extends Occupation where
  score : Rat
  matches' : List SearchMatch
  breadcrumb : String
deriving Repr, DecidableEq

/-- `SearchFilters` from `src/lib/search.ts`. -/
structure SearchFilters where
  iscoMajorGroups : List String
  occupationTypes : List String
deriving Repr, DecidableEq

/-- One raw candidate returned by the fuzzy pass (`fuse.search`).
`fuse.js` is an external library, so its output is a parameter of the
model; `score` is the raw fuse score (`0` = perfect match) after the
`result.score || 0` default, and the optional fields of a reported match
are modelled as already defaulted (`match.key || ''` etc.). -/
structure FuseResultItem where
  item : Occupation
  score : Rat
  matches' : List SearchMatch
deriving Repr

namespace Engine

/-- `getMajorGroupName` private to `EnhancedSearchEngine`
(`src/lib/search.ts`). -/
def getMajorGroupName (code : String) : String :=
  match code with
  | "0" => "Armed forces occupations"
  | "1" => "Managers"
  | "2" => "Professionals"
  | "3" => "Technicians and associate professionals"
  | "4" => "Clerical support workers"
  | "5" => "Service and sales workers"
  | "6" => "Skilled agricultural, forestry and fishery workers"
  | "7" => "Craft and related trades workers"
  | "8" => "Plant and machine operators, and assemblers"
  | "9" => "Elementary occupations"
  | _ => "Group " ++ code

/-- `getSubMajorGroupName` private to `EnhancedSearchEngine`: only the
sub-major groups 11–14 and 21–26 are tabulated. -/
def getSubMajorGroupName (code : String) : String :=
  match code with
  | "11" => "Chief executives, senior officials and legislators"
  | "12" => "Administrative and commercial managers"
  | "13" => "Production and specialised services managers"
  | "14" => "Hospitality, retail and other services managers"
  | "21" => "Science and engineering professionals"
  | "22" => "Health professionals"
  | "23" => "Teaching professionals"
  | "24" => "Business and administration professionals"
  | "25" => "Information and communications technology professionals"
  | "26" => "Legal, social and cultural professionals"
  | _ => "Group " ++ code

/-- `getMinorGroupName` private to `EnhancedSearchEngine`: only the six
minor groups 111, 112, 121, 122, 211 and 212 are tabulated — in
particular `"251"` is missing and falls back to `"Group 251"`. -/
def getMinorGroupName (code : String) : String :=
  match code with
  | "111" => "Legislators and senior officials"
  | "112" => "Managing directors and chief executives"
  | "121" => "Business services and administration managers"
  | "122" => "Sales, marketing and development managers"
  | "211" => "Physical and earth science professionals"
  | "212" => "Mathematicians, actuaries and statisticians"
  | _ => "Group " ++ code

/-- `matchesFilters` from `src/lib/search.ts`: with a non-empty
`iscoMajorGroups` facet the record's first code character must be one of
the listed values (an absent first character fails); with a non-empty
`occupationTypes` facet the record's `occupationType` must be listed (an
empty `occupationType` fails). -/
def matchesFilters (occupation : Occupation) (filters : SearchFilters) : Bool :=
  (if filters.iscoMajorGroups.length > 0 then
    let majorGroup := jsCharAt0 occupation.code
    !(majorGroup == "") && filters.iscoMajorGroups.contains majorGroup
  else true) &&
  (if filters.occupationTypes.length > 0 then
    !(occupation.occupationType == "") &&
      filters.occupationTypes.contains occupation.occupationType
  else true)

/-- `generateBreadcrumb` from `src/lib/search.ts`: join
`"{prefix} - {name}"` for the 1-, 2- and 3-character prefixes of the full
`code` (as far as its length allows) with `" > "`, using the engine's own
(truncated) name tables. -/
def generateBreadcrumb (occupation : Occupation) : String :=
  let code := occupation.code
  if code == "" then ""
  else
    let majorCode := jsCharAt0 code
    let parts := [majorCode ++ " - " ++ getMajorGroupName majorCode]
    let parts := if code.length ≥ 2 then
        parts ++ [jsSubstringTo code 2 ++ " - " ++ getSubMajorGroupName (jsSubstringTo code 2)]
      else parts
    let parts := if code.length ≥ 3 then
        parts ++ [jsSubstringTo code 3 ++ " - " ++ getMinorGroupName (jsSubstringTo code 3)]
      else parts
    String.intercalate " > " parts

/-- ECMAScript word characters: the `\w` class `[A-Za-z0-9_]`. -/
def isWordChar (c : Char) : Bool := c.isAlphanum || c == '_'

/-- Case-insensitive (ASCII case folding, matching the regex `'i'` flag on
these inputs) test that the pattern `p` occurs at the start of `s`. -/
def startsWithCI : List Char → List Char → Bool
  | _, [] => true
  | [], _ :: _ => false
  | c :: cs, p :: ps => (c.toLower == p.toLower) && startsWithCI cs ps

/-- The `\b` assertion holds between two (optional) characters iff exactly
one of them is a word character; an absent character is not one. -/
def isBoundary (before after : Option Char) : Bool :=
  (before.elim false isWordChar) != (after.elim false isWordChar)

/-- Does `\b` followed by the literal pattern `pat` (case-insensitively)
match at the current position or anywhere to its right?  `prev` is the
character immediately before the current position. -/
def wbSearch (pat : List Char) (prev : Option Char) (s : List Char) : Bool :=
  (isBoundary prev s.head? && startsWithCI s pat) ||
    match s with
    | [] => false
    | c :: rest => wbSearch pat (some c) rest

/-- Characters that are syntactically significant in an ECMAScript
pattern (everything else stands for itself). -/
def regexMetachars : List Char :=
  ['\\', '^', '$', '.', '*', '+', '?', '(', ')', '[', ']', '\x7b', '\x7d', '|']

/-- `new RegExp('\\b' + queryLower, 'i').test(label)` of `boostRelevance`,
modelled on the fragment where the interpolated query is free of regex
metacharacters: there the pattern matches iff the literal query occurs
case-insensitively at a word boundary of `label`.  A query containing a
metacharacter is outside the modelled fragment and gives `none`; for such
queries the construction does not treat the query as literal text and may
throw a `SyntaxError` — for example the query `"("` yields the invalid
pattern `\b(` (unterminated group) and the query `"c++"` yields the
invalid pattern `\bc++` (nothing to repeat), so `new RegExp` throws and
`boostRelevance` raises. -/
def wordBoundaryTest (queryLower label : String) : Option Bool :=
  if queryLower.data.all (fun c => !regexMetachars.contains c) then
    some (wbSearch queryLower.data none label.data)
  else
    none

/-- The body of `boostRelevance`'s `map` for one result: multiply the
score by 1.3 if the lowercased query is a substring of the lowercased
`preferredLabel`, by 1.2 if it is a substring of the lowercased `code`,
and by 1.1 if the word-boundary regex matches `preferredLabel`;
`none` models the exception from the `RegExp` construction. -/
def boostOne (queryLower : String) (result : SearchResult) : Option SearchResult :=
  let s1 := if jsIncludes (jsToLower result.preferredLabel) queryLower
    then result.score * (13 / 10 : Rat) else result.score
  let s2 := if jsIncludes (jsToLower result.code) queryLower
    then s1 * (12 / 10 : Rat) else s1
  match wordBoundaryTest queryLower result.preferredLabel with
  | none => none
  | some wb => some { result with score := if wb then s2 * (11 / 10 : Rat) else s2 }

/-- `boostRelevance`'s `map` over all candidates; an exception thrown for
any element aborts the whole call. -/
def boostAll (queryLower : String) : List SearchResult → Option (List SearchResult)
  | [] => some []
  | r :: rs =>
    match boostOne queryLower r, boostAll queryLower rs with
    | some r', some rs' => some (r' :: rs')
    | _, _ => none

/-- The comparator `(a, b) => b.score - a.score` of `boostRelevance`:
descending by boosted score. -/
def scoreGe (a b : SearchResult) : Prop := b.score ≤ a.score

instance : DecidableRel scoreGe := fun a b =>
  inferInstanceAs (Decidable (b.score ≤ a.score))

instance : IsTotal SearchResult scoreGe := ⟨fun _ _ => le_total _ _⟩

instance : IsTrans SearchResult scoreGe := ⟨fun _ _ _ h h' => le_trans h' h⟩

/-- `boostRelevance` from `src/lib/search.ts`: boost every candidate's
score, then re-sort descending by boosted score (stable). -/
def boostRelevance (results : List SearchResult) (query : String) :
    Option (List SearchResult) :=
  let queryLower := jsToLower query
  match boostAll queryLower results with
  | none => none
  | some boosted => some (boosted.insertionSort scoreGe)

/-- `getFilteredOccupations` from `src/lib/search.ts`: the whole corpus,
facet-filtered when filters are given, each record wrapped with score 1,
no matches and its breadcrumb. -/
def getFilteredOccupations (occupations : List Occupation)
    (filters : Option SearchFilters) : List SearchResult :=
  let results := match filters with
    | some f => occupations.filter (fun occ => matchesFilters occ f)
    | none => occupations
  results.map fun occ =>
    { toOccupation := occ, score := 1, matches' := [], breadcrumb := generateBreadcrumb occ }

/-- `applyFilters` from `src/lib/search.ts`. -/
def applyFilters (results : List SearchResult) (filters : SearchFilters) :
    List SearchResult :=
  results.filter fun result => matchesFilters result.toOccupation filters

/-- `search` from `src/lib/search.ts`.  `occupations` is the engine's
corpus and `fuse` the fuzzy pass of the external `fuse.js` index built
over it (a parameter of the model); an empty (or all-whitespace) query
takes the filtered-browse path, any other query runs the fuzzy pass with
`limit * 2`, converts raw scores by `1 - score`, applies the facet
filters if given, boosts and re-sorts, and truncates to `limit`.
`none` models an exception escaping `search`. -/
def search (occupations : List Occupation)
    (fuse : String → Nat → List FuseResultItem)
    (query : String) (filters : Option SearchFilters) (limit : Nat) :
    Option (List SearchResult) :=
  if jsTrim query == "" then
    some ((getFilteredOccupations occupations filters).take limit)
  else
    let fuseResults := fuse query (limit * 2)
    let searchResults := fuseResults.map fun r =>
      { toOccupation := r.item, score := 1 - r.score, matches' := r.matches',
        breadcrumb := generateBreadcrumb r.item }
    let searchResults := match filters with
      | some f => applyFilters searchResults f
      | none => searchResults
    match boostRelevance searchResults query with
    | none => none
    | some boosted => some (boosted.take limit)

end Engine

/-- Only the lowercased queries accepted by the modelled regex fragment:
no ECMAScript pattern metacharacter occurs in the string. -/
def metacharFree (s : String) : Bool :=
  s.data.all fun c => !Engine.regexMetachars.contains c

/-- Sample record: a unit-level software developer. -/
def occDev : Occupation := occWith "2512" "Software developer"

/-- Sample record: a five-character pre-dot code (deeper than the unit
level). -/
def occDeep : Occupation := occWith "25123" "Deep coder"

/-- Sample record: a label containing the query `"c++"`. -/
def occCpp : Occupation := occWith "2512" "c++ developer"

/-- Sample records with the same code and different labels. -/
def occDupA : Occupation := occWith "11" "First legislator"

/-- Second record with the code of `occDupA`. -/
def occDupB : Occupation := occWith "11" "Second legislator"

/-- Sample record carrying an occupation type. -/
def occTyped : Occupation :=
  { occWith "1111" "Senator" with occupationType := "Occupation" }

/-- A fuzzy-pass stub returning `occDev` as its single raw candidate with
a raw fuse score of 1/5, whatever the query. -/
def fuseStubDev : String → Nat → List FuseResultItem :=
  fun _ _ => [⟨occDev, 1 / 5, []⟩]

/-- A fuzzy-pass stub returning no candidates. -/
def fuseStubEmpty : String → Nat → List FuseResultItem :=
  fun _ _ => []

/-- A sample unboosted search result for `occCpp`. -/
def resultCpp : SearchResult :=
  { toOccupation := occCpp, score := 4 / 5, matches' := [], breadcrumb := "" }

/-- A sample unboosted search result for `occDev`. -/
def resultDev : SearchResult :=
  { toOccupation := occDev, score := 4 / 5, matches' := [], breadcrumb := "" }

/-- A sample unboosted search result whose label and code both contain the
query `"2512"`, which also sits at a word boundary: all three boosts
apply. -/
def resultAll : SearchResult :=
  { toOccupation := occWith "2512" "2512 developer", score := 1 / 2,
    matches' := [], breadcrumb := "" }
/-- The codes of the group children of a list (used to state uniqueness
of sibling group codes). -/
def groupCodes (cs : List Child) : List String :=
  cs.filterMap fun ch => match ch with
    | .group c _ _ => some c
    | .occ _ => none

/-- The sort keys of all children of a list. -/
def childKeys (cs : List Child) : List String :=
  cs.map childCode

/-- The name `organizeOccupations` gives a group at each level, as a
function of the group code alone (major for 1-character codes, sub-major
for 2, minor for 3, unit otherwise). -/
def levelName (c : String) : String :=
  if c.length = 1 then Occupations.getMajorGroupName c
  else if c.length = 2 then Occupations.getSubMajorGroupName c
  else if c.length = 3 then Occupations.getMinorGroupName c
  else Occupations.getUnitGroupName c

/-- The chain of `(group code, group name)` pairs traversed by
`insertOccupation` for a record with this code, read off its branch
structure: one pair per group level, outermost first. -/
def pathOf (code : String) : List (String × String) :=
  let m := mainCodeOf code
  let mj := jsCharAt0 m
  let s2 := jsSubstringTo m 2
  let s3 := jsSubstringTo m 3
  if m.length = 1 then [(mj, Occupations.getMajorGroupName mj)]
  else if m.length = 2 then
    [(mj, Occupations.getMajorGroupName mj),
      (s2, Occupations.getSubMajorGroupName s2)]
  else if m.length = 4 then
    [(mj, Occupations.getMajorGroupName mj),
      (s2, Occupations.getSubMajorGroupName s2),
      (s3, Occupations.getMinorGroupName s3),
      (m, Occupations.getUnitGroupName m)]
  else
    [(mj, Occupations.getMajorGroupName mj),
      (s2, Occupations.getSubMajorGroupName s2),
      (s3, Occupations.getMinorGroupName s3)]

/-- Sorted upserts along a path of `(code, name)` pairs, ending in the
sorted insertion of the record: the action of `insertOccupationSorted`
along its branch chain. -/
def pathInsertS (o : Occupation) : List (String × String) → List Child → List Child
  | [] => fun cs => List.orderedInsert childLe (.occ o) cs
  | g :: rest => fun cs => upsertGroupSorted cs g.1 g.2 (pathInsertS o rest)

/-- Append-style upserts along a path of `(code, name)` pairs, ending in a
record push: the action of `insertOccupation` along its branch chain. -/
def pathInsertU (o : Occupation) : List (String × String) → List Child → List Child
  | [] => fun cs => cs ++ [.occ o]
  | g :: rest => fun cs => upsertGroup cs g.1 g.2 (pathInsertU o rest)

/-- Shape of an insertion path below level `L`: each pair's code is
dot-free, one character longer than the previous level, and carries its
level name; the path bottoms out exactly at the record's slot. -/
def pathShape (code : String) (L : Nat) : List (String × String) → Prop
  | [] => recordSlot code = L
  | g :: rest => g.1.data.length = L + 1 ∧ g.1.data.all (· ≠ '.') = true ∧
      g.2 = levelName g.1 ∧ pathShape code (L + 1) rest

/-- Pointwise form of `updateFirstGroup` under unique sibling group
codes: patch the (unique) group carrying `code`, leave everything else
alone. -/
def groupPatch (code : String) (f : List Child → List Child) : Child → Child
  | Child.group c n gcs =>
    if c == code then Child.group c n (f gcs) else Child.group c n gcs
  | Child.occ o => Child.occ o

/-! ## Theorems -/

/-- The length of a string built from an explicit character list. -/
theorem strLength_mk (l : List Char) : (String.mk l).length = l.length := rfl

/-- Taking `n` characters of a string caps its length at `n`. -/
theorem jsSubstringTo_length (s : String) (n : Nat) :
    (jsSubstringTo s n).length = min n s.length := by
  rw [show (jsSubstringTo s n).length = (s.data.take n).length from rfl,
    List.length_take]
  rfl

/-- C10: the `else if (unitGroup.length === 4)` branch of
`organizeOccupations` is unreachable: for every record, if the 2-character
sub-major prefix of the pre-dot code exists (has length 2) while the
3-character minor prefix does not (length ≠ 3), the pre-dot code has
length at most 2 and in particular never has length 4, so every record
reaching a unit group node passes through a minor group node. -/
theorem c10_unit_without_minor_unreachable (o : Occupation)
    (_h2 : (jsSubstringTo (mainCodeOf o.code) 2).length = 2)
    (h3 : (jsSubstringTo (mainCodeOf o.code) 3).length ≠ 3) :
    (mainCodeOf o.code).length ≤ 2 ∧ (mainCodeOf o.code).length ≠ 4 := by
  rw [jsSubstringTo_length] at _h2 h3
  omega

/-- Witness for C10 at the record with code `"11"`. -/
theorem c10_witness :
    (jsSubstringTo (mainCodeOf occDupA.code) 2).length = 2 ∧
      (jsSubstringTo (mainCodeOf occDupA.code) 3).length ≠ 3 ∧
      (mainCodeOf occDupA.code).length ≤ 2 ∧ (mainCodeOf occDupA.code).length ≠ 4 := by
  refine ⟨by decide, by decide, ?_⟩
  exact c10_unit_without_minor_unreachable occDupA (by decide) (by decide)

/-- C1 (supporting evaluation for the code bug): the pattern interpolation
`new RegExp('\\b' + query.toLowerCase(), 'i')` in `boostRelevance` throws
a `SyntaxError` for the query `"("` (the pattern `\b(` has an unterminated
group), so `search` raises instead of terminating normally as soon as the
fuzzy pass returns any candidate — here a one-record corpus whose single
fuzzy candidate is that record. -/
theorem c1_search_raises_on_metachar_query :
    Engine.search [occDev] fuseStubDev "(" none 100 = none := by decide

/-- C4 (counterexample): for the record with code `"2512"` the engine's
breadcrumb is not the string claimed by the spec — the engine's own
`getMinorGroupName` table does not contain `"251"`. -/
theorem c4_counterexample :
    ¬ (Engine.generateBreadcrumb occDev =
      "2 - Professionals > 25 - Information and communications technology professionals > 251 - Software and applications developers and analysts") := by
  decide

/-- C4 (amended): for every record whose code is `"2512"`, the breadcrumb
produced by the search engine is exactly
`"2 - Professionals > 25 - Information and communications technology professionals > 251 - Group 251"`:
the minor-group segment falls back to the synthetic `"Group 251"` name
because the engine's private minor-group table only covers 111, 112, 121,
122, 211 and 212. -/
theorem c4_breadcrumb_of_2512 (o : Occupation) (h : o.code = "2512") :
    Engine.generateBreadcrumb o =
      "2 - Professionals > 25 - Information and communications technology professionals > 251 - Group 251" := by
  unfold Engine.generateBreadcrumb
  rw [h]
  decide

/-- Witness for C4 at `occDev`. -/
theorem c4_witness :
    occDev.code = "2512" ∧
      Engine.generateBreadcrumb occDev =
        "2 - Professionals > 25 - Information and communications technology professionals > 251 - Group 251" :=
  ⟨by decide, c4_breadcrumb_of_2512 occDev (by decide)⟩

/-- C5 (counterexample): the claim fails for the query `"c++"` (and a
candidate whose label contains it literally): `boostRelevance` does not
multiply the raw score by 1.3 and return the boosted result — the pattern
`\bc++` is an invalid ECMAScript regex, so the ranker throws instead of
producing any result. -/
theorem c5_counterexample :
    Engine.boostRelevance [resultCpp] "c++" = none := by decide

/-- For a metacharacter-free lowercased query, `boostOne` returns the
result with its score multiplied by 1.3 exactly when the query is a
substring of the lowercased label, by 1.2 exactly when it is a substring
of the lowercased code, and by 1.1 exactly when the word-boundary regex
matches the label. -/
theorem boostOne_of_metacharFree (q : String) (r : SearchResult)
    (h : metacharFree q = true) :
    Engine.boostOne q r = some { r with score := r.score *
      (if jsIncludes (jsToLower r.preferredLabel) q then (13 / 10 : Rat) else 1) *
      (if jsIncludes (jsToLower r.code) q then (12 / 10 : Rat) else 1) *
      (if Engine.wbSearch q.data none r.preferredLabel.data then (11 / 10 : Rat) else 1) } := by
  have hwb : Engine.wordBoundaryTest q r.preferredLabel =
      some (Engine.wbSearch q.data none r.preferredLabel.data) := by
    have h0 : (q.data.all fun c => !Engine.regexMetachars.contains c) = true := h
    unfold Engine.wordBoundaryTest
    simp only [h0, if_true]
  unfold Engine.boostOne
  rw [hwb]
  by_cases hA : jsIncludes (jsToLower r.preferredLabel) q = true <;>
    by_cases hB : jsIncludes (jsToLower r.code) q = true <;>
    by_cases hC : Engine.wbSearch q.data none r.preferredLabel.data = true <;>
    simp [hA, hB, hC, mul_one]

/-- `boostAll` under a metacharacter-free lowercased query maps
`boostOne`'s boost over the whole candidate list. -/
theorem boostAll_of_metacharFree (q : String) (rs : List SearchResult)
    (h : metacharFree q = true) :
    Engine.boostAll q rs = some (rs.map fun r =>
      { r with score := r.score *
        (if jsIncludes (jsToLower r.preferredLabel) q then (13 / 10 : Rat) else 1) *
        (if jsIncludes (jsToLower r.code) q then (12 / 10 : Rat) else 1) *
        (if Engine.wbSearch q.data none r.preferredLabel.data then (11 / 10 : Rat) else 1) }) := by
  induction rs with
  | nil => rfl
  | cons r rs ih =>
    rw [Engine.boostAll, boostOne_of_metacharFree q r h, ih]
    rfl

/-- C5 (amended): for every query whose lowercased form is free of
ECMAScript regex metacharacters (so that the interpolated word-boundary
pattern is the literal query) and every candidate list, the ranker
multiplies each raw score by 1.3 exactly when the lowercased query is a
literal substring of the lowercased `preferredLabel`, by 1.2 exactly when
it is a literal substring of the lowercased `code`, and by 1.1 exactly
when the literal query matches at a word boundary in `preferredLabel`
case-insensitively; the three boosts compound multiplicatively, and the
boosted results are re-sorted descending by score.  (As stated — for
every non-empty query — the claim fails: see the counterexample.) -/
theorem c5_boost_rules (results : List SearchResult) (query : String)
    (h : metacharFree (jsToLower query) = true) :
    Engine.boostRelevance results query = some
      ((results.map fun r =>
        { r with score := r.score *
          (if jsIncludes (jsToLower r.preferredLabel) (jsToLower query) then (13 / 10 : Rat) else 1) *
          (if jsIncludes (jsToLower r.code) (jsToLower query) then (12 / 10 : Rat) else 1) *
          (if Engine.wbSearch (jsToLower query).data none r.preferredLabel.data then (11 / 10 : Rat) else 1)
        }).insertionSort Engine.scoreGe) := by
  rw [Engine.boostRelevance, boostAll_of_metacharFree _ _ h]

/-- Witness for C5 at the query `"2512"` and a single candidate whose
label and code both contain the query at a word boundary: all three
factors apply and the boosted score is `1/2 * 13/10 * 12/10 * 11/10`. -/
theorem c5_witness :
    metacharFree (jsToLower "2512") = true ∧
      Engine.boostRelevance [resultAll] "2512" = some
        (([resultAll].map fun r =>
          { r with score := r.score *
            (if jsIncludes (jsToLower r.preferredLabel) (jsToLower "2512") then (13 / 10 : Rat) else 1) *
            (if jsIncludes (jsToLower r.code) (jsToLower "2512") then (12 / 10 : Rat) else 1) *
            (if Engine.wbSearch (jsToLower "2512").data none r.preferredLabel.data then (11 / 10 : Rat) else 1)
          }).insertionSort Engine.scoreGe) ∧
      jsIncludes (jsToLower resultAll.preferredLabel) (jsToLower "2512") = true ∧
      jsIncludes (jsToLower resultAll.code) (jsToLower "2512") = true ∧
      Engine.wbSearch (jsToLower "2512").data none resultAll.preferredLabel.data = true :=
  ⟨by decide, c5_boost_rules [resultAll] "2512" (by decide), by decide, by decide, by decide⟩

/-- C6: for every corpus, fuzzy pass, filters value and limit, `search`
with an empty (or all-whitespace) query returns exactly the records of
the corpus that satisfy the filters, each wrapped in a `SearchResult`
with score 1 and an empty matches list, truncated to at most `limit`
results. -/
theorem c6_empty_query_browse (occs : List Occupation)
    (fuse : String → Nat → List FuseResultItem) (query : String)
    (filters : Option SearchFilters) (limit : Nat)
    (h : jsTrim query = "") :
    Engine.search occs fuse query filters limit =
      some (((match filters with
        | some f => occs.filter fun occ => Engine.matchesFilters occ f
        | none => occs).map fun occ =>
          ({ toOccupation := occ, score := 1, matches' := [],
             breadcrumb := Engine.generateBreadcrumb occ } : SearchResult)).take limit) ∧
    ∀ results, Engine.search occs fuse query filters limit = some results →
      ∀ r ∈ results, r.score = 1 ∧ r.matches' = [] ∧ r.toOccupation ∈ occs ∧
        ∀ f, filters = some f → Engine.matchesFilters r.toOccupation f = true := by
  have hb : (jsTrim query == "") = true := by simp [h]
  have heq : Engine.search occs fuse query filters limit =
      some (((match filters with
        | some f => occs.filter fun occ => Engine.matchesFilters occ f
        | none => occs).map fun occ =>
          ({ toOccupation := occ, score := 1, matches' := [],
             breadcrumb := Engine.generateBreadcrumb occ } : SearchResult)).take limit) := by
    simp only [Engine.search, hb, if_true, Engine.getFilteredOccupations]
  refine ⟨heq, ?_⟩
  intro results hres r hr
  rw [heq, Option.some.injEq] at hres
  subst hres
  have hr' := List.take_subset _ _ hr
  rcases List.mem_map.mp hr' with ⟨occ, hocc, rfl⟩
  refine ⟨rfl, rfl, ?_, ?_⟩
  · cases filters with
    | none => exact hocc
    | some f => exact (List.mem_filter.mp hocc).1
  · intro f hf
    subst hf
    exact (List.mem_filter.mp hocc).2

/-- Witness for C6: an all-whitespace query against a two-record corpus
with an active major-group facet returns exactly the matching record with
score 1 and no matches. -/
theorem c6_witness :
    jsTrim "  " = "" ∧
      Engine.search [occDev, occTyped] fuseStubEmpty "  "
          (some ⟨["1"], []⟩) 5 =
        some [{ toOccupation := occTyped, score := 1, matches' := [],
                breadcrumb := Engine.generateBreadcrumb occTyped }] :=
  ⟨by decide, by
    rw [(c6_empty_query_browse [occDev, occTyped] fuseStubEmpty "  "
      (some ⟨["1"], []⟩) 5 (by decide)).1]
    decide⟩

/-- If `matchesFilters` accepts a record while the major-group facet is
active, the record's code is non-empty. -/
theorem matchesFilters_code_ne (occ : Occupation) (f : SearchFilters)
    (hf : f.iscoMajorGroups ≠ [])
    (hm : Engine.matchesFilters occ f = true) : occ.code ≠ "" := by
  intro hc
  have hl : f.iscoMajorGroups.length > 0 := List.length_pos.mpr hf
  rw [Engine.matchesFilters, if_pos hl] at hm
  simp only [hc] at hm
  simp [jsCharAt0] at hm

/-- If `matchesFilters` accepts a record while the occupation-type facet
is active, the record's `occupationType` is non-empty. -/
theorem matchesFilters_type_ne (occ : Occupation) (f : SearchFilters)
    (hf : f.occupationTypes ≠ [])
    (hm : Engine.matchesFilters occ f = true) : occ.occupationType ≠ "" := by
  intro hc
  have hl : f.occupationTypes.length > 0 := List.length_pos.mpr hf
  rw [Engine.matchesFilters] at hm
  rw [Bool.and_eq_true] at hm
  have hm2 := hm.2
  rw [if_pos hl] at hm2
  simp [hc] at hm2

/-- `boostOne` never changes which record a result wraps. -/
theorem boostOne_toOccupation (q : String) (r r' : SearchResult)
    (h : Engine.boostOne q r = some r') : r'.toOccupation = r.toOccupation := by
  unfold Engine.boostOne at h
  cases hwb : Engine.wordBoundaryTest q r.preferredLabel with
  | none => rw [hwb] at h; cases h
  | some wb => rw [hwb] at h; cases h; rfl

/-- Every result delivered by `boostAll` wraps the record of one of the
input results. -/
theorem boostAll_toOccupation (q : String) (rs bs : List SearchResult)
    (h : Engine.boostAll q rs = some bs) :
    ∀ b ∈ bs, ∃ r ∈ rs, b.toOccupation = r.toOccupation := by
  induction rs generalizing bs with
  | nil =>
    cases h
    intro b hb
    cases hb
  | cons r rs ih =>
    rw [Engine.boostAll] at h
    cases h1 : Engine.boostOne q r with
    | none => rw [h1] at h; cases h
    | some r' =>
      cases h2 : Engine.boostAll q rs with
      | none => rw [h1, h2] at h; cases h
      | some bs' =>
        rw [h1, h2] at h
        cases h
        intro b hb
        rcases List.mem_cons.mp hb with rfl | hb'
        · exact ⟨r, List.mem_cons_self r rs, boostOne_toOccupation q r b h1⟩
        · rcases ih bs' h2 b hb' with ⟨r₀, hr₀, he⟩
          exact ⟨r₀, List.mem_cons_of_mem r hr₀, he⟩

/-- Every result returned by a filtered `search` satisfies
`matchesFilters` — on both the browse path and the fuzzy path
(the facet filter precedes boosting, and boosting, re-sorting and
truncation preserve the record). -/
theorem search_filters_hold (occs : List Occupation)
    (fuse : String → Nat → List FuseResultItem) (query : String)
    (f : SearchFilters) (limit : Nat) (results : List SearchResult)
    (hs : Engine.search occs fuse query (some f) limit = some results) :
    ∀ r ∈ results, Engine.matchesFilters r.toOccupation f = true := by
  intro r hr
  by_cases hq : (jsTrim query == "") = true
  · rw [Engine.search, if_pos hq, Option.some.injEq] at hs
    subst hs
    have hr' := List.take_subset _ _ hr
    have hr'' : ∃ a, (a ∈ occs ∧ Engine.matchesFilters a f = true) ∧
        ({ toOccupation := a, score := 1, matches' := [],
           breadcrumb := Engine.generateBreadcrumb a } : SearchResult) = r := by
      simpa [Engine.getFilteredOccupations] using hr'
    rcases hr'' with ⟨a, ⟨_, hm⟩, rfl⟩
    exact hm
  · rw [Engine.search, if_neg hq] at hs
    simp only [Engine.boostRelevance] at hs
    cases hb : Engine.boostAll (jsToLower query)
        (Engine.applyFilters ((fuse query (limit * 2)).map fun r =>
          { toOccupation := r.item, score := 1 - r.score, matches' := r.matches',
            breadcrumb := Engine.generateBreadcrumb r.item }) f) with
    | none => rw [hb] at hs; cases hs
    | some bs =>
      rw [hb, Option.some.injEq] at hs
      subst hs
      have hr1 := List.take_subset _ _ hr
      have hr2 : r ∈ bs := by
        have := (List.perm_insertionSort Engine.scoreGe bs).mem_iff.mp hr1
        exact this
      rcases boostAll_toOccupation _ _ _ hb r hr2 with ⟨r₀, hr₀, he⟩
      have hf₀ : Engine.matchesFilters r₀.toOccupation f = true := by
        have h' := hr₀
        simp only [Engine.applyFilters, List.mem_filter] at h'
        exact h'.2
      rw [he]
      exact hf₀

/-- C9: a record with an empty `code` fails `matchesFilters` whenever the
`iscoMajorGroups` facet is non-empty, and a record with an empty
`occupationType` fails it whenever the `occupationTypes` facet is
non-empty; consequently such records never appear in any `search` result
(filtered fuzzy search or empty-query browse) when the corresponding
facet is active. -/
theorem c9_empty_fields_fail_filters :
    (∀ (occ : Occupation) (f : SearchFilters),
       f.iscoMajorGroups ≠ [] → occ.code = "" →
         Engine.matchesFilters occ f = false) ∧
    (∀ (occ : Occupation) (f : SearchFilters),
       f.occupationTypes ≠ [] → occ.occupationType = "" →
         Engine.matchesFilters occ f = false) ∧
    (∀ (occs : List Occupation) (fuse : String → Nat → List FuseResultItem)
       (query : String) (f : SearchFilters) (limit : Nat)
       (results : List SearchResult),
       f.iscoMajorGroups ≠ [] →
       Engine.search occs fuse query (some f) limit = some results →
       ∀ r ∈ results, r.toOccupation.code ≠ "") ∧
    (∀ (occs : List Occupation) (fuse : String → Nat → List FuseResultItem)
       (query : String) (f : SearchFilters) (limit : Nat)
       (results : List SearchResult),
       f.occupationTypes ≠ [] →
       Engine.search occs fuse query (some f) limit = some results →
       ∀ r ∈ results, r.toOccupation.occupationType ≠ "") := by
  refine ⟨?_, ?_, ?_, ?_⟩
  · intro occ f hf hc
    by_contra hne
    exact matchesFilters_code_ne occ f hf (by simpa using hne) hc
  · intro occ f hf hc
    by_contra hne
    exact matchesFilters_type_ne occ f hf (by simpa using hne) hc
  · intro occs fuse query f limit results hf hs r hr
    exact matchesFilters_code_ne _ f hf (search_filters_hold _ _ _ _ _ _ hs r hr)
  · intro occs fuse query f limit results hf hs r hr
    exact matchesFilters_type_ne _ f hf (search_filters_hold _ _ _ _ _ _ hs r hr)

/-- Witness for C9: the empty-code record fails the active major-group
facet, the empty-type record fails the active type facet, and a concrete
filtered browse search never lists them. -/
theorem c9_witness :
    Engine.matchesFilters blankOccupation ⟨["2"], []⟩ = false ∧
    Engine.matchesFilters blankOccupation ⟨[], ["Occupation"]⟩ = false ∧
    ({ toOccupation := occDev, score := 1, matches' := [],
       breadcrumb := Engine.generateBreadcrumb occDev } : SearchResult).toOccupation.code ≠ "" := by
  refine ⟨?_, ?_, ?_⟩
  · exact c9_empty_fields_fail_filters.1 blankOccupation ⟨["2"], []⟩ (by decide) rfl
  · exact c9_empty_fields_fail_filters.2.1 blankOccupation ⟨[], ["Occupation"]⟩ (by decide) rfl
  · have hs : Engine.search [occDev, blankOccupation] fuseStubEmpty ""
        (some ⟨["2"], []⟩) 5 =
        some [{ toOccupation := occDev, score := 1, matches' := [],
                breadcrumb := Engine.generateBreadcrumb occDev }] := by decide
    exact c9_empty_fields_fail_filters.2.2.1 [occDev, blankOccupation] fuseStubEmpty
      "" ⟨["2"], []⟩ 5 _ (by decide) hs _ (List.mem_singleton_self _)

/-- Recursively sorting never changes a child's code key. -/
theorem childCode_sortChildren (c : Child) :
    childCode (sortChildren c) = childCode c := by
  cases c <;> rfl

/-- `sortChildList` is the elementwise `sortChildren` map. -/
theorem sortChildList_eq_map (l : List Child) :
    sortChildList l = l.map sortChildren := by
  induction l with
  | nil => rfl
  | cons c cs ih => rw [sortChildList, ih]; rfl

/-- The Bool-level adjacent-pair check is `List.Chain'` of the
comparator. -/
theorem chainLeB_iff : ∀ l : List Child, chainLeB l = true ↔ l.Chain' childLe
  | [] => by simp [chainLeB]
  | [a] => by simp [chainLeB]
  | a :: b :: rest => by
    rw [chainLeB, Bool.and_eq_true, decide_eq_true_eq, List.chain'_cons,
      chainLeB_iff (b :: rest)]

/-- The Bool-level recursive sortedness check holds for a list iff it
holds for each member. -/
theorem childListSorted_iff : ∀ l : List Child,
    childListSorted l = true ↔ ∀ c ∈ l, childSorted c = true
  | [] => by simp [childListSorted]
  | c :: cs => by
    rw [childListSorted, Bool.and_eq_true, childListSorted_iff cs]
    simp

mutual

/-- Every subtree produced by `sortChildren` has sorted children lists
throughout. -/
theorem childSorted_sortChildren : ∀ c : Child, childSorted (sortChildren c) = true
  | .group code name cs => by
    rw [sortChildren, childSorted, Bool.and_eq_true]
    constructor
    · rw [chainLeB_iff]
      exact (List.sorted_insertionSort childLe (sortChildList cs)).chain'
    · rw [childListSorted_iff]
      intro x hx
      have hx' : x ∈ sortChildList cs :=
        (List.perm_insertionSort childLe (sortChildList cs)).mem_iff.mp hx
      have hall := (childListSorted_iff (sortChildList cs)).mp
        (childListSorted_sortChildList cs)
      exact hall x hx'
  | .occ o => rfl

/-- Every list produced by `sortChildList` consists of recursively sorted
subtrees. -/
theorem childListSorted_sortChildList : ∀ l : List Child,
    childListSorted (sortChildList l) = true
  | [] => rfl
  | c :: cs => by
    rw [sortChildList, childListSorted, Bool.and_eq_true]
    exact ⟨childSorted_sortChildren c, childListSorted_sortChildList cs⟩

end

/-- C7: in every tree returned by `organizeOccupations` — the root list
included — the children of each group node satisfy
`children[i].code <= children[i+1].code` for every adjacent pair under
the (code-point lexicographic) string comparison, with the same code key
whether the child is a group or a record. -/
theorem c7_children_sorted (occs : List Occupation) :
    chainLeB (organizeOccupations occs) = true ∧
      childListSorted (organizeOccupations occs) = true := by
  constructor
  · rw [organizeOccupations]
    rw [sortChildList_eq_map, chainLeB_iff, List.chain'_map]
    have hs := (List.sorted_insertionSort childLe
      ((occs.foldl insertOccupation []))).chain'
    exact hs.imp fun a b h => by
      show childLe (sortChildren a) (sortChildren b)
      unfold childLe
      rw [childCode_sortChildren, childCode_sortChildren]
      exact h
  · exact childListSorted_sortChildList _

/-- `placementsL` distributes over list concatenation. -/
theorem placementsL_append (p : String) (l₁ l₂ : List Child) :
    placementsL p (l₁ ++ l₂) = placementsL p l₁ ++ placementsL p l₂ := by
  induction l₁ with
  | nil => rfl
  | cons c cs ih => rw [List.cons_append, placementsL, placementsL, ih, List.append_assoc]

/-- Permuting a children list permutes its placements. -/
theorem placementsL_perm (p : String) {l₁ l₂ : List Child} (h : l₁.Perm l₂) :
    (placementsL p l₁).Perm (placementsL p l₂) := by
  induction h with
  | nil => exact List.Perm.refl _
  | cons x _ ih => rw [placementsL, placementsL]; exact ih.append_left _
  | swap x y l =>
    rw [placementsL, placementsL, placementsL, placementsL,
      ← List.append_assoc, ← List.append_assoc]
    exact List.perm_append_comm.append_right _
  | trans _ _ ih₁ ih₂ => exact ih₁.trans ih₂

mutual

/-- The recursive sort pass permutes the placements of a subtree. -/
theorem placements_sortChildren (p : String) :
    ∀ c : Child, (placements p (sortChildren c)).Perm (placements p c)
  | .group c n cs => by
    rw [sortChildren, placements, placements]
    exact (placementsL_perm c (List.perm_insertionSort childLe (sortChildList cs))).trans
      (placementsL_sortChildList c cs)
  | .occ o => List.Perm.refl _

/-- The recursive sort pass permutes the placements of a children
list. -/
theorem placementsL_sortChildList (p : String) :
    ∀ l : List Child, (placementsL p (sortChildList l)).Perm (placementsL p l)
  | [] => List.Perm.refl _
  | c :: cs => by
    rw [sortChildList, placementsL, placementsL]
    exact (placements_sortChildren p c).append (placementsL_sortChildList p cs)

end

/-- The whole normalisation pass (root sort plus recursive sorts)
permutes the placements. -/
theorem placementsL_normChildren (p : String) (l : List Child) :
    (placementsL p (normChildren l)).Perm (placementsL p l) := by
  rw [normChildren]
  exact (placementsL_sortChildList p _).trans
    (placementsL_perm p (List.perm_insertionSort childLe l))

/-- Updating the first group with a given code through a continuation
that prepends (up to permutation) `NEW` to that group's placements
prepends `NEW` to the list's placements. -/
theorem placementsL_updateFirstGroup (p code : String) (NEW : List (String × Occupation))
    (f : List Child → List Child)
    (hf : ∀ gcs, (placementsL code (f gcs)).Perm (NEW ++ placementsL code gcs)) :
    ∀ cs : List Child, hasGroup cs code = true →
      (placementsL p (updateFirstGroup code f cs)).Perm (NEW ++ placementsL p cs)
  | [], h => by cases h
  | Child.group c n gcs :: rest, h => by
    by_cases hc : (c == code) = true
    · have hcc : c = code := by simpa using hc
      rw [updateFirstGroup, if_pos hc, placementsL, placements, placementsL, placements]
      subst hcc
      have e : (NEW ++ placementsL c gcs) ++ placementsL p rest =
          NEW ++ (placementsL c gcs ++ placementsL p rest) := List.append_assoc _ _ _
      exact e ▸ ((hf gcs).append_right (placementsL p rest))
    · have hrest : hasGroup rest code = true := by
        rw [hasGroup]
        rw [hasGroup, List.any_cons, Bool.or_eq_true] at h
        rcases h with h' | h'
        · exact absurd h' hc
        · exact h'
      rw [updateFirstGroup, if_neg hc]
      simp only [placementsL, placements]
      refine ((placementsL_updateFirstGroup p code NEW f hf rest hrest).append_left
        (placementsL c gcs)).trans ?_
      rw [← List.append_assoc, ← List.append_assoc]
      exact List.perm_append_comm.append_right _
  | Child.occ o :: rest, h => by
    have hrest : hasGroup rest code = true := by
      rw [hasGroup]
      rw [hasGroup, List.any_cons, Bool.or_eq_true] at h
      rcases h with h' | h'
      · exact absurd h' (by simp)
      · exact h'
    rw [updateFirstGroup]
    simp only [placementsL, placements]
    refine ((placementsL_updateFirstGroup p code NEW f hf rest hrest).append_left
      [(p, o)]).trans ?_
    rw [← List.append_assoc, ← List.append_assoc]
    exact List.perm_append_comm.append_right _

/-- The find-or-create-then-extend step through a continuation that
prepends (up to permutation) `NEW` to the touched group's placements
prepends `NEW` to the list's placements. -/
theorem placementsL_upsertGroup (p : String) (cs : List Child) (code name : String)
    (NEW : List (String × Occupation)) (f : List Child → List Child)
    (hf : ∀ gcs, (placementsL code (f gcs)).Perm (NEW ++ placementsL code gcs)) :
    (placementsL p (upsertGroup cs code name f)).Perm (NEW ++ placementsL p cs) := by
  rw [upsertGroup]
  by_cases h : hasGroup cs code = true
  · rw [if_pos h]
    exact placementsL_updateFirstGroup p code NEW f hf cs h
  · rw [if_neg h, placementsL_append, placementsL, placements, placementsL,
      List.append_nil]
    refine ((hf []).append_left (placementsL p cs)).trans ?_
    rw [placementsL, List.append_nil]
    exact List.perm_append_comm

/-- Pushing a record at the end of a group's children appends its
placement. -/
theorem placementsL_push (g : String) (o : Occupation) (gcs : List Child) :
    (placementsL g (gcs ++ [Child.occ o])).Perm ([(g, o)] ++ placementsL g gcs) := by
  rw [placementsL_append]
  simp only [placementsL, placements, List.append_nil]
  exact List.perm_append_singleton _ _

/-- A string of length zero is the empty string. -/
theorem string_eq_empty_of_length_zero {s : String} (h : s.length = 0) : s = "" := by
  have hd : s.data = [] := List.length_eq_zero.mp h
  cases s
  simp only at hd
  rw [hd]

/-- A record whose pre-dot code has length exactly 4 targets the unit
group, whose code is the whole pre-dot code. -/
theorem targetGroupCode_eq4 (code : String)
    (h4 : (mainCodeOf code).length = 4) : targetGroupCode code = mainCodeOf code := by
  rw [targetGroupCode, recordSlot]
  have hl : (mainCodeOf code).data.length ≤ 4 := le_of_eq h4
  rw [if_neg (by omega), if_pos h4, jsSubstringTo, List.take_of_length_le hl]

/-- A record whose pre-dot code has length 3 or at least 5 targets the
minor group (first three characters). -/
theorem targetGroupCode_eq3 (code : String)
    (h3 : 3 ≤ (mainCodeOf code).length) (h4 : (mainCodeOf code).length ≠ 4) :
    targetGroupCode code = jsSubstringTo (mainCodeOf code) 3 := by
  rw [targetGroupCode, recordSlot]
  by_cases hle : (mainCodeOf code).length ≤ 3
  · have he : (mainCodeOf code).length = 3 := by omega
    rw [if_pos hle, he]
  · rw [if_neg hle, if_neg h4]

/-- A record whose pre-dot code has length 2 targets the sub-major group
(first two characters). -/
theorem targetGroupCode_eq2 (code : String)
    (h2 : (mainCodeOf code).length = 2) :
    targetGroupCode code = jsSubstringTo (mainCodeOf code) 2 := by
  rw [targetGroupCode, recordSlot, if_pos (by omega), h2]

/-- A record whose pre-dot code has length 1 targets the major group
(its first character). -/
theorem targetGroupCode_eq1 (code : String)
    (h1 : (mainCodeOf code).length = 1) :
    targetGroupCode code = jsCharAt0 (mainCodeOf code) := by
  rw [targetGroupCode, recordSlot, if_pos (by omega), h1]
  rfl

/-- Inserting a processed record prepends (up to permutation) exactly one
placement — the record under its target group — to the tree's
placements. -/
theorem placements_insertOccupation (s : List Child) (o : Occupation)
    (h : insertedQ o.code = true) :
    (placementsL "" (insertOccupation s o)).Perm
      ([(targetGroupCode o.code, o)] ++ placementsL "" s) := by
  rw [insertedQ, Bool.and_eq_true] at h
  have hni1 : ¬ ((o.code == "") = true) := by simpa using h.1
  have hni2 : ¬ ((mainCodeOf o.code == "") = true) := by simpa using h.2
  have hmpos : 1 ≤ (mainCodeOf o.code).length := by
    rcases Nat.eq_zero_or_pos (mainCodeOf o.code).length with h0 | h1
    · exact absurd (by rw [string_eq_empty_of_length_zero h0]; rfl) hni2
    · exact h1
  simp only [insertOccupation]
  rw [if_neg hni1, if_neg hni2]
  refine placementsL_upsertGroup _ s _ _ _ _ ?_
  intro gcs
  by_cases h2 : ((jsSubstringTo (mainCodeOf o.code) 2).length == 2) = true
  · rw [if_pos h2]
    have h2' : 2 ≤ (mainCodeOf o.code).length := by
      have := beq_iff_eq.mp h2
      rw [jsSubstringTo_length] at this
      omega
    refine placementsL_upsertGroup _ gcs _ _ _ _ ?_
    intro gcs2
    by_cases h3 : ((jsSubstringTo (mainCodeOf o.code) 3).length == 3) = true
    · rw [if_pos h3]
      have h3' : 3 ≤ (mainCodeOf o.code).length := by
        have := beq_iff_eq.mp h3
        rw [jsSubstringTo_length] at this
        omega
      refine placementsL_upsertGroup _ gcs2 _ _ _ _ ?_
      intro gcs3
      by_cases h4 : ((mainCodeOf o.code).length == 4) = true
      · rw [if_pos h4]
        have h4' : (mainCodeOf o.code).length = 4 := beq_iff_eq.mp h4
        rw [targetGroupCode_eq4 o.code h4']
        refine placementsL_upsertGroup _ gcs3 _ _ _ _ ?_
        intro gcs4
        exact placementsL_push _ o gcs4
      · rw [if_neg h4]
        have h4' : (mainCodeOf o.code).length ≠ 4 := by
          intro he
          exact h4 (beq_iff_eq.mpr he)
        rw [targetGroupCode_eq3 o.code h3' h4']
        exact placementsL_push _ o gcs3
    · have h3' : (mainCodeOf o.code).length = 2 := by
        have hne : (jsSubstringTo (mainCodeOf o.code) 3).length ≠ 3 := by
          intro he
          exact h3 (beq_iff_eq.mpr he)
        rw [jsSubstringTo_length] at hne
        omega
      rw [if_neg h3]
      have h4 : ¬ (((mainCodeOf o.code).length == 4) = true) := by
        intro hx
        have := beq_iff_eq.mp hx
        omega
      rw [if_neg h4]
      rw [targetGroupCode_eq2 o.code h3']
      exact placementsL_push _ o gcs2
  · have h2' : (mainCodeOf o.code).length = 1 := by
      have hne : (jsSubstringTo (mainCodeOf o.code) 2).length ≠ 2 := by
        intro he
        exact h2 (beq_iff_eq.mpr he)
      rw [jsSubstringTo_length] at hne
      omega
    rw [if_neg h2]
    rw [targetGroupCode_eq1 o.code h2']
    exact placementsL_push _ o gcs

/-- A record that is skipped (empty code or empty pre-dot code) leaves
the tree unchanged. -/
theorem insertOccupation_of_skipped (s : List Child) (o : Occupation)
    (h : insertedQ o.code = false) : insertOccupation s o = s := by
  rw [insertedQ, Bool.and_eq_false_iff] at h
  simp only [insertOccupation]
  rcases h with h | h
  · rw [if_pos (by simpa using h)]
  · by_cases hc : (o.code == "") = true
    · rw [if_pos hc]
    · rw [if_neg hc, if_pos (by simpa using h)]

/-- The placements of the folded (pre-sort) tree are, up to permutation,
the processed records paired with their target groups, on top of the
placements of the starting state. -/
theorem placements_foldl (l : List Occupation) (s : List Child) :
    (placementsL "" (l.foldl insertOccupation s)).Perm
      (((l.filter fun o => insertedQ o.code).map
          fun o => (targetGroupCode o.code, o)) ++ placementsL "" s) := by
  induction l generalizing s with
    | nil => simp
    | cons o l ih =>
      rw [List.foldl_cons]
      by_cases hq : insertedQ o.code = true
      · have step := placements_insertOccupation s o hq
        refine ((ih (insertOccupation s o)).trans ?_)
        rw [List.filter_cons_of_pos (by simpa using hq), List.map_cons]
        refine (step.append_left _).trans ?_
        have e1 : ((l.filter fun o => insertedQ o.code).map
              fun o => (targetGroupCode o.code, o)) ++
            ([(targetGroupCode o.code, o)] ++ placementsL "" s) =
            ((l.filter fun o => insertedQ o.code).map
              fun o => (targetGroupCode o.code, o)) ++
            (targetGroupCode o.code, o) :: placementsL "" s := rfl
        rw [e1]
        exact List.perm_middle
      · have hq' : insertedQ o.code = false := by
          cases hx : insertedQ o.code
          · rfl
          · exact absurd hx hq
        rw [insertOccupation_of_skipped s o hq',
          List.filter_cons_of_neg (by simpa using hq')]
        exact ih s

/-- C2 (amended): every processed record — non-empty code whose pre-dot
part `m` is also non-empty — is a direct child of the group node with
code `m` itself (the unit group) when `m` has exactly 4 characters, of
the minor group (first 3 characters of `m`) when `m` has 3 or at least 5
characters, of the sub-major group when `m` has 2, and of the major group
when it has 1; a record whose pre-dot part is empty is skipped entirely.
`targetGroupCode` encodes that level rule, and the pair in `placementsL`
states that the record lies directly in the children array of the group
with that code.  (As stated — unit placement for every `m` of length at
least 4 — the claim fails: see the counterexample.) -/
theorem c2_placement_rule (occs : List Occupation) (o : Occupation)
    (ho : o ∈ occs) (hq : insertedQ o.code = true) :
    (targetGroupCode o.code, o) ∈ placementsL "" (organizeOccupations occs) := by
  show (targetGroupCode o.code, o) ∈
    placementsL "" (normChildren (occs.foldl insertOccupation []))
  apply (placementsL_normChildren "" (occs.foldl insertOccupation [])).mem_iff.mpr
  apply (placements_foldl occs []).mem_iff.mpr
  rw [placementsL, List.append_nil]
  exact List.mem_map.mpr ⟨o, List.mem_filter.mpr ⟨ho, hq⟩, rfl⟩

/-- C2 (counterexample): the record with code `"25123"` has a 4-character
unit prefix (`"2512"`), yet `organizeOccupations` does not attach it
under any unit group node — it lands under the minor group `"251"`,
because the unit-level test is `mainCode.length === 4`, not `>= 4`. -/
theorem c2_counterexample :
    (jsSubstringTo (mainCodeOf occDeep.code) 4).length = 4 ∧
      ("2512", occDeep) ∉ placementsL "" (organizeOccupations [occDeep]) ∧
      placementsL "" (organizeOccupations [occDeep]) = [("251", occDeep)] :=
  ⟨by decide, by decide, by decide⟩

/-- Witness for C2 at the record with code `"2512"`. -/
theorem c2_witness :
    occDev ∈ [occDev] ∧ insertedQ occDev.code = true ∧
      (targetGroupCode occDev.code, occDev) ∈
        placementsL "" (organizeOccupations [occDev]) :=
  ⟨List.mem_singleton_self _, by decide,
    c2_placement_rule [occDev] occDev (List.mem_singleton_self _) (by decide)⟩

/-- The empty list is a prefix of any list. -/
theorem nilPref {α : Type} {l : List α} : [] <+: l := List.nil_prefix

/-- A take is a prefix of the list. -/
theorem takePref {α : Type} (n : Nat) (l : List α) : l.take n <+: l :=
  List.take_prefix n l

/-- A shorter take is a prefix of a longer take. -/
theorem takePrefTake {α : Type} {j k : Nat} (h : j ≤ k) (l : List α) :
    l.take j <+: l.take k := by
  have h1 := List.take_prefix j (l.take k)
  rwa [List.take_take, Nat.min_eq_left h] at h1

/-- The pre-dot part of a code is a prefix of the code. -/
theorem mainCode_pref (code : String) : (mainCodeOf code).data <+: code.data :=
  List.takeWhile_prefix _

/-- Members of a `takeWhile` satisfy the predicate. -/
theorem memTakeWhile {α : Type} (p : α → Bool) :
    ∀ (l : List α) (x : α), x ∈ l.takeWhile p → p x = true
  | [], x, hx => by cases hx
  | a :: l, x, hx => by
    rw [List.takeWhile_cons] at hx
    by_cases hp : p a = true
    · rw [if_pos hp] at hx
      rcases List.mem_cons.mp hx with rfl | hx'
      · exact hp
      · exact memTakeWhile p l x hx'
    · rw [if_neg hp] at hx
      cases hx

/-- The pre-dot part of a code contains no dot. -/
theorem mainCode_dotFree (code : String) :
    (mainCodeOf code).data.all (· ≠ '.') = true := by
  rw [List.all_eq_true]
  intro x hx
  have hx' : x ∈ code.data.takeWhile (fun c => decide (c ≠ '.')) := hx
  exact memTakeWhile _ code.data x hx'


/-- Any take of the pre-dot part contains no dot. -/
theorem take_dotFree (k : Nat) (code : String) :
    ((mainCodeOf code).data.take k).all (· ≠ '.') = true := by
  rw [List.all_eq_true]
  intro x hx
  exact (List.all_eq_true.mp (mainCode_dotFree code)) x (List.take_subset _ _ hx)

/-- `hasGroup` on a cons. -/
theorem hasGroup_cons (x : Child) (rest : List Child) (c : String) :
    hasGroup (x :: rest) c =
      ((match x with | .group c' _ _ => c' == c | .occ _ => false) ||
        hasGroup rest c) := rfl

/-- `hasGroup` on an append. -/
theorem hasGroup_append (l₁ l₂ : List Child) (c : String) :
    hasGroup (l₁ ++ l₂) c = (hasGroup l₁ c || hasGroup l₂ c) := by
  rw [hasGroup, hasGroup, hasGroup, List.any_append]

/-- Updating a group's children in place never changes which group codes
are present. -/
theorem hasGroup_updateFirstGroup (code c : String) (f : List Child → List Child) :
    ∀ cs, hasGroup (updateFirstGroup code f cs) c = hasGroup cs c
  | [] => rfl
  | Child.group c' n gcs :: rest => by
    rw [updateFirstGroup]
    by_cases hc : (c' == code) = true
    · rw [if_pos hc, hasGroup_cons, hasGroup_cons]
    · rw [if_neg hc, hasGroup_cons, hasGroup_cons,
        hasGroup_updateFirstGroup code c f rest]
  | Child.occ o :: rest => by
    rw [updateFirstGroup, hasGroup_cons, hasGroup_cons,
      hasGroup_updateFirstGroup code c f rest]

/-- Definitional unfolding of `WFList` on a cons. -/
theorem WFList_cons (p : String) (ch : Child) (rest : List Child) :
    WFList p (ch :: rest) ↔ (WFChild p ch ∧
      (match ch with
        | .group c _ _ => hasGroup rest c = false
        | .occ _ => True) ∧ WFList p rest) := Iff.rfl

/-- Definitional unfolding of `WFChild` on a group node. -/
theorem WFChild_group (p c n : String) (cs : List Child) :
    WFChild p (.group c n cs) ↔
      (c.data.length = p.data.length + 1 ∧ p.data <+: c.data ∧
        c.data.all (· ≠ '.') = true ∧ c.data.length ≤ 4 ∧ WFList c cs) := Iff.rfl

/-- Definitional unfolding of `WFChild` on a record. -/
theorem WFChild_occ (p : String) (o : Occupation) :
    WFChild p (.occ o) ↔
      (p.data <+: (mainCodeOf o.code).data ∧ insertedQ o.code = true ∧
        recordSlot o.code = p.data.length) := Iff.rfl

/-- Appending one child at the end preserves well-formedness, provided
the child is itself well-formed and (when a group) its code is not
already a sibling group code. -/
theorem WFList_append_single (p : String) (x : Child) :
    ∀ cs, WFList p cs → WFChild p x →
      (∀ c' n' g', x = Child.group c' n' g' → hasGroup cs c' = false) →
      WFList p (cs ++ [x])
  | [], _, hx, _ => by
    rw [List.nil_append, WFList_cons]
    refine ⟨hx, ?_, trivial⟩
    cases x with
    | group c' n' g' => rfl
    | occ o => trivial
  | ch :: rest, hwf, hx, hno => by
    rw [List.cons_append, WFList_cons]
    rw [WFList_cons] at hwf
    refine ⟨hwf.1, ?_, WFList_append_single p x rest hwf.2.2 hx
      (fun c' n' g' he => (Bool.or_eq_false_iff.mp
        (by rw [← hasGroup_cons]; exact hno c' n' g' he)).2)⟩
    cases ch with
    | occ o => trivial
    | group c n gcs =>
      show hasGroup (rest ++ [x]) c = false
      rw [hasGroup_append, hwf.2.1, Bool.false_or]
      cases x with
      | occ o => rfl
      | group c' n' g' =>
        have h1 := hno c' n' g' rfl
        rw [hasGroup_cons] at h1
        have hcc : (c == c') = false := (Bool.or_eq_false_iff.mp h1).1
        have hcc' : (c' == c) = false := by
          rw [beq_eq_false_iff_ne] at hcc ⊢
          exact fun he => hcc he.symm
        show ((c' == c) || hasGroup [] c) = false
        rw [hcc']
        rfl

/-- Extending the children of the first group with a given code through a
well-formedness preserving continuation preserves list
well-formedness. -/
theorem WFList_updateFirstGroup (p code : String) (f : List Child → List Child)
    (hf : ∀ gcs, WFList code gcs → WFList code (f gcs)) :
    ∀ cs, WFList p cs → WFList p (updateFirstGroup code f cs)
  | [], _ => trivial
  | Child.group c n gcs :: rest, hwf => by
    rw [WFList_cons] at hwf
    obtain ⟨hch, hnd, hrest⟩ := hwf
    rw [updateFirstGroup]
    by_cases hc : (c == code) = true
    · have hcc : c = code := by simpa using hc
      subst hcc
      rw [if_pos hc, WFList_cons]
      rw [WFChild_group] at hch
      exact ⟨by
        rw [WFChild_group]
        exact ⟨hch.1, hch.2.1, hch.2.2.1, hch.2.2.2.1, hf gcs hch.2.2.2.2⟩,
        hnd, hrest⟩
    · rw [if_neg hc, WFList_cons]
      refine ⟨hch, ?_, WFList_updateFirstGroup p code f hf rest hrest⟩
      show hasGroup (updateFirstGroup code f rest) c = false
      rw [hasGroup_updateFirstGroup]
      exact hnd
  | Child.occ o :: rest, hwf => by
    rw [WFList_cons] at hwf
    rw [updateFirstGroup, WFList_cons]
    exact ⟨hwf.1, trivial, WFList_updateFirstGroup p code f hf rest hwf.2.2⟩

/-- The find-or-create-then-extend step preserves well-formedness when
the group's code has the right shape for this level and the continuation
preserves well-formedness of the group's children. -/
theorem WFList_upsertGroup (p : String) (cs : List Child) (code name : String)
    (f : List Child → List Child)
    (hlen : code.data.length = p.data.length + 1) (hpre : p.data <+: code.data)
    (hdot : code.data.all (· ≠ '.') = true) (hle : code.data.length ≤ 4)
    (hf : ∀ gcs, WFList code gcs → WFList code (f gcs))
    (hwf : WFList p cs) : WFList p (upsertGroup cs code name f) := by
  rw [upsertGroup]
  by_cases h : hasGroup cs code = true
  · rw [if_pos h]
    exact WFList_updateFirstGroup p code f hf cs hwf
  · rw [if_neg h]
    refine WFList_append_single p _ cs hwf ?_ ?_
    · rw [WFChild_group]
      exact ⟨hlen, hpre, hdot, hle, hf [] trivial⟩
    · intro c' n' g' he
      cases he
      exact Bool.eq_false_iff.mpr h

/-- A record whose pre-dot code has length 4 sits at slot 4. -/
theorem recordSlot_eq4 (code : String) (h : (mainCodeOf code).length = 4) :
    recordSlot code = 4 := by
  simp only [recordSlot]
  rw [if_neg (by omega), if_pos h]

/-- A record whose pre-dot code has length 3 or at least 5 sits at
slot 3. -/
theorem recordSlot_eq3 (code : String) (h3 : 3 ≤ (mainCodeOf code).length)
    (h4 : (mainCodeOf code).length ≠ 4) : recordSlot code = 3 := by
  simp only [recordSlot]
  by_cases hle : (mainCodeOf code).length ≤ 3
  · rw [if_pos hle]
    omega
  · rw [if_neg hle, if_neg h4]

/-- A record whose pre-dot code has length at most 3 sits at the slot of
that length. -/
theorem recordSlot_short (code : String) (h : (mainCodeOf code).length ≤ 3) :
    recordSlot code = (mainCodeOf code).length := by
  simp only [recordSlot]
  rw [if_pos h]

/-- Inserting any record preserves the shape invariant of the root
forest. -/
theorem WFList_insertOccupation (s : List Child) (o : Occupation)
    (hwf : WFList "" s) : WFList "" (insertOccupation s o) := by
  by_cases hq : insertedQ o.code = true
  · have h := hq
    rw [insertedQ, Bool.and_eq_true] at h
    have hni1 : ¬ ((o.code == "") = true) := by simpa using h.1
    have hni2 : ¬ ((mainCodeOf o.code == "") = true) := by simpa using h.2
    have hbr : (mainCodeOf o.code).length = (mainCodeOf o.code).data.length := rfl
    have hmpos : 1 ≤ (mainCodeOf o.code).data.length := by
      rcases Nat.eq_zero_or_pos (mainCodeOf o.code).data.length with h0 | h1
      · exact absurd (by rw [string_eq_empty_of_length_zero h0]; rfl) hni2
      · exact h1
    simp only [insertOccupation]
    rw [if_neg hni1, if_neg hni2]
    refine WFList_upsertGroup "" s _ _ _ ?_ nilPref (take_dotFree 1 o.code) ?_ ?_ hwf
    · show (List.take 1 (mainCodeOf o.code).data).length = ("" : String).data.length + 1
      rw [List.length_take]
      show min 1 (mainCodeOf o.code).data.length = 0 + 1
      omega
    · show (List.take 1 (mainCodeOf o.code).data).length ≤ 4
      rw [List.length_take]
      omega
    · intro gcs hg
      by_cases h2 : ((jsSubstringTo (mainCodeOf o.code) 2).length == 2) = true
      · have h2' : 2 ≤ (mainCodeOf o.code).data.length := by
          have hx := beq_iff_eq.mp h2
          rw [jsSubstringTo_length, hbr] at hx
          omega
        rw [if_pos h2]
        refine WFList_upsertGroup _ gcs _ _ _ ?_ (takePrefTake (by omega) _)
          (take_dotFree 2 o.code) ?_ ?_ hg
        · show (List.take 2 (mainCodeOf o.code).data).length =
            (List.take 1 (mainCodeOf o.code).data).length + 1
          rw [List.length_take, List.length_take]
          omega
        · show (List.take 2 (mainCodeOf o.code).data).length ≤ 4
          rw [List.length_take]
          omega
        · intro gcs2 hg2
          by_cases h3 : ((jsSubstringTo (mainCodeOf o.code) 3).length == 3) = true
          · have h3' : 3 ≤ (mainCodeOf o.code).data.length := by
              have hx := beq_iff_eq.mp h3
              rw [jsSubstringTo_length, hbr] at hx
              omega
            rw [if_pos h3]
            refine WFList_upsertGroup _ gcs2 _ _ _ ?_ (takePrefTake (by omega) _)
              (take_dotFree 3 o.code) ?_ ?_ hg2
            · show (List.take 3 (mainCodeOf o.code).data).length =
                (List.take 2 (mainCodeOf o.code).data).length + 1
              rw [List.length_take, List.length_take]
              omega
            · show (List.take 3 (mainCodeOf o.code).data).length ≤ 4
              rw [List.length_take]
              omega
            · intro gcs3 hg3
              by_cases h4 : ((mainCodeOf o.code).length == 4) = true
              · have h4' : (mainCodeOf o.code).length = 4 := beq_iff_eq.mp h4
                rw [if_pos h4]
                refine WFList_upsertGroup _ gcs3 _ _ _ ?_ (takePref 3 _)
                  (mainCode_dotFree o.code) (by omega) ?_ hg3
                · show (mainCodeOf o.code).data.length =
                    (List.take 3 (mainCodeOf o.code).data).length + 1
                  rw [List.length_take]
                  omega
                · intro gcs4 hg4
                  refine WFList_append_single _ _ gcs4 hg4 ?_
                    (fun _ _ _ he => by cases he)
                  rw [WFChild_occ]
                  exact ⟨List.prefix_rfl, hq, by rw [recordSlot_eq4 o.code h4', hbr, h4'] at *⟩
              · have h4' : (mainCodeOf o.code).length ≠ 4 := by
                  intro hx
                  exact h4 (beq_iff_eq.mpr hx)
                rw [if_neg h4]
                refine WFList_append_single _ _ gcs3 hg3 ?_
                  (fun _ _ _ he => by cases he)
                rw [WFChild_occ]
                refine ⟨takePref 3 _, hq, ?_⟩
                rw [recordSlot_eq3 o.code (by omega) h4']
                show 3 = (List.take 3 (mainCodeOf o.code).data).length
                rw [List.length_take]
                omega
          · have h3' : (mainCodeOf o.code).data.length = 2 := by
              have hx : (jsSubstringTo (mainCodeOf o.code) 3).length ≠ 3 := by
                intro hx
                exact h3 (beq_iff_eq.mpr hx)
              rw [jsSubstringTo_length, hbr] at hx
              omega
            rw [if_neg h3, if_neg (by
              intro hx
              have := beq_iff_eq.mp hx
              omega : ¬ (((mainCodeOf o.code).length == 4) = true))]
            refine WFList_append_single _ _ gcs2 hg2 ?_
              (fun _ _ _ he => by cases he)
            rw [WFChild_occ]
            refine ⟨takePref 2 _, hq, ?_⟩
            rw [recordSlot_short o.code (by omega)]
            show (mainCodeOf o.code).length = (List.take 2 (mainCodeOf o.code).data).length
            rw [List.length_take, hbr]
            omega
      · have h2' : (mainCodeOf o.code).data.length = 1 := by
          have hx : (jsSubstringTo (mainCodeOf o.code) 2).length ≠ 2 := by
            intro hx
            exact h2 (beq_iff_eq.mpr hx)
          rw [jsSubstringTo_length, hbr] at hx
          omega
        rw [if_neg h2]
        refine WFList_append_single _ _ gcs hg ?_ (fun _ _ _ he => by cases he)
        rw [WFChild_occ]
        refine ⟨takePref 1 _, hq, ?_⟩
        rw [recordSlot_short o.code (by omega)]
        show (mainCodeOf o.code).length = (List.take 1 (mainCodeOf o.code).data).length
        rw [List.length_take, hbr]
        omega
  · have hq' : insertedQ o.code = false := Bool.eq_false_iff.mpr hq
    rw [insertOccupation_of_skipped s o hq']
    exact hwf

/-- `groupCodes` on a cons. -/
theorem groupCodes_cons (x : Child) (rest : List Child) :
    groupCodes (x :: rest) = (match x with
      | .group c _ _ => c :: groupCodes rest
      | .occ _ => groupCodes rest) := by
  cases x <;> rfl

/-- A group code is present iff it occurs among the list's group
codes. -/
theorem hasGroup_iff_mem : ∀ (cs : List Child) (c : String),
    hasGroup cs c = true ↔ c ∈ groupCodes cs
  | [], c => by
    show false = true ↔ c ∈ ([] : List String)
    simp
  | Child.group c' n g :: rest, c => by
    rw [hasGroup_cons]
    show ((c' == c) || hasGroup rest c) = true ↔ c ∈ c' :: groupCodes rest
    rw [Bool.or_eq_true, beq_iff_eq, List.mem_cons, hasGroup_iff_mem rest c]
    exact or_congr eq_comm Iff.rfl
  | Child.occ o :: rest, c => by
    rw [hasGroup_cons]
    show ((false : Bool) || hasGroup rest c) = true ↔ c ∈ groupCodes rest
    rw [Bool.false_or, hasGroup_iff_mem rest c]

/-- `WFList` is membership well-formedness of every child plus uniqueness
of the sibling group codes. -/
theorem WFList_iff (p : String) : ∀ l : List Child,
    WFList p l ↔ (∀ x ∈ l, WFChild p x) ∧ (groupCodes l).Nodup
  | [] => by
    constructor
    · intro _
      exact ⟨fun x hx => absurd hx (List.not_mem_nil x), List.nodup_nil⟩
    · intro _
      trivial
  | ch :: rest => by
    rw [WFList_cons, WFList_iff p rest, List.forall_mem_cons]
    cases ch with
    | occ o =>
      show (WFChild p (Child.occ o) ∧ True ∧ _) ↔
        ((WFChild p (Child.occ o) ∧ _) ∧ (groupCodes rest).Nodup)
      tauto
    | group c n g =>
      show (WFChild p (Child.group c n g) ∧ hasGroup rest c = false ∧ _) ↔
        ((WFChild p (Child.group c n g) ∧ _) ∧ (c :: groupCodes rest).Nodup)
      rw [List.nodup_cons]
      have hng : hasGroup rest c = false ↔ c ∉ groupCodes rest := by
        rw [← hasGroup_iff_mem rest c]
        exact Bool.eq_false_iff
      rw [hng]
      tauto

/-- Well-formedness of a children list is invariant under
permutation. -/
theorem WFList_of_perm (p : String) {l₁ l₂ : List Child} (hp : l₁.Perm l₂)
    (hwf : WFList p l₁) : WFList p l₂ := by
  rw [WFList_iff] at hwf ⊢
  refine ⟨fun x hx => hwf.1 x (hp.mem_iff.mpr hx), ?_⟩
  exact ((hp.filterMap _).nodup_iff).mp hwf.2

/-- The recursive sort pass never changes which group codes are
present. -/
theorem hasGroup_sortChildList : ∀ (l : List Child) (c : String),
    hasGroup (sortChildList l) c = hasGroup l c
  | [], _ => rfl
  | ch :: rest, c => by
    rw [sortChildList, hasGroup_cons, hasGroup_cons, hasGroup_sortChildList rest c]
    cases ch <;> rfl

mutual

/-- The recursive sort pass preserves child well-formedness. -/
theorem WFChild_sortChildren : ∀ (p : String) (c : Child),
    WFChild p c → WFChild p (sortChildren c)
  | p, .group c n cs, h => by
    rw [sortChildren, WFChild_group]
    rw [WFChild_group] at h
    refine ⟨h.1, h.2.1, h.2.2.1, h.2.2.2.1, ?_⟩
    exact WFList_of_perm c (List.perm_insertionSort childLe (sortChildList cs)).symm
      (WFList_sortChildList c cs h.2.2.2.2)
  | p, .occ o, h => by
    rw [sortChildren]
    exact h

/-- The recursive sort pass preserves list well-formedness. -/
theorem WFList_sortChildList : ∀ (p : String) (l : List Child),
    WFList p l → WFList p (sortChildList l)
  | _, [], h => h
  | p, ch :: rest, h => by
    rw [WFList_cons] at h
    rw [sortChildList, WFList_cons]
    refine ⟨WFChild_sortChildren p ch h.1, ?_, WFList_sortChildList p rest h.2.2⟩
    cases ch with
    | occ o =>
      rw [sortChildren]
      trivial
    | group c n cs =>
      rw [sortChildren]
      show hasGroup (sortChildList rest) c = false
      rw [hasGroup_sortChildList]
      exact h.2.1

end

/-- Every tree returned by `organizeOccupations` satisfies the shape
invariant. -/
theorem WFList_organize (occs : List Occupation) :
    WFList "" (organizeOccupations occs) := by
  show WFList "" (normChildren (occs.foldl insertOccupation []))
  have hfold : ∀ (l : List Occupation) (s : List Child), WFList "" s →
      WFList "" (l.foldl insertOccupation s) := by
    intro l
    induction l with
    | nil => exact fun s hs => hs
    | cons o l ih => exact fun s hs => ih _ (WFList_insertOccupation s o hs)
  rw [normChildren]
  exact WFList_sortChildList "" _
    (WFList_of_perm "" (List.perm_insertionSort childLe _).symm
      (hfold occs [] trivial))

mutual

/-- In a well-formed subtree the enclosing code is a prefix of every
record's code. -/
theorem subtreeChild_codes (p : String) : ∀ c : Child, WFChild p c →
    ∀ o ∈ subtreeOccs c, p.data <+: o.code.data
  | .group c n cs, h, o, ho => by
    rw [WFChild_group] at h
    exact h.2.1.trans (subtreeL_codes c cs h.2.2.2.2 o ho)
  | .occ o', h, o, ho => by
    rw [WFChild_occ] at h
    have ho' : o ∈ [o'] := ho
    have he : o = o' := by simpa using ho'
    subst he
    exact h.1.trans (mainCode_pref o.code)

/-- In a well-formed children list the enclosing code is a prefix of
every record's code. -/
theorem subtreeL_codes (p : String) : ∀ l : List Child, WFList p l →
    ∀ o ∈ subtreeOccsL l, p.data <+: o.code.data
  | [], _, o, ho => by cases ho
  | ch :: rest, h, o, ho => by
    rw [WFList_cons] at h
    rcases List.mem_append.mp ho with h1 | h2
    · exact subtreeChild_codes p ch h.1 o h1
    · exact subtreeL_codes p rest h.2.2 o h2

end

mutual

/-- Well-formed subtrees satisfy the (non-strict) prefix checker. -/
theorem prefixInv_child_of_WF (p : String) : ∀ c : Child, WFChild p c →
    prefixInv false c = true
  | .group c n cs, h => by
    rw [WFChild_group] at h
    rw [prefixInv, Bool.and_eq_true]
    constructor
    · rw [List.all_eq_true]
      intro o ho
      rw [Bool.and_eq_true]
      constructor
      · rw [strPrefixB, decide_eq_true_eq]
        exact subtreeL_codes c cs h.2.2.2.2 o ho
      · rfl
    · exact prefixInvL_of_WF c cs h.2.2.2.2
  | .occ o, _ => rfl

/-- Well-formed children lists satisfy the (non-strict) prefix
checker. -/
theorem prefixInvL_of_WF (p : String) : ∀ l : List Child, WFList p l →
    prefixInvL false l = true
  | [], _ => rfl
  | ch :: rest, h => by
    rw [WFList_cons] at h
    rw [prefixInvL, Bool.and_eq_true]
    exact ⟨prefixInv_child_of_WF p ch h.1, prefixInvL_of_WF p rest h.2.2⟩

end

/-- C3 (amended): in every tree returned by `organizeOccupations`, each
group node's code is a prefix — not necessarily strict — of the code of
every record in that node's subtree.  Strictness fails precisely when a
record's full code coincides with its group's code (e.g. a record with
code `"2512"` inside the unit group `"2512"`), so only the weaker
invariant holds. -/
theorem c3_group_code_is_pref_of_descendants (occs : List Occupation) :
    prefixInvL false (organizeOccupations occs) = true :=
  prefixInvL_of_WF "" _ (WFList_organize occs)

/-- C3 (counterexample): for the single record with code `"2512"` the
strict-prefix invariant fails — the record is a direct child of the unit
group node whose code equals the record's code. -/
theorem c3_counterexample :
    prefixInvL true (organizeOccupations [occDev]) = false := by decide

/-- Equal character data means equal strings. -/
theorem stringDataEq {s t : String} (h : s.data = t.data) : s = t :=
  congrArg String.mk h

/-- The comparator is total. -/
theorem childLe_total (a b : Child) : childLe a b ∨ childLe b a := le_total _ _

/-- The comparator is transitive. -/
theorem childLe_trans {a b c : Child} : childLe a b → childLe b c → childLe a c :=
  le_trans

/-- Two children each at most the other have equal sort keys. -/
theorem childCode_eq_of_le_le {a b : Child} (h1 : childLe a b) (h2 : childLe b a) :
    childCode a = childCode b :=
  stringDataEq (le_antisymm h1 h2)

/-- Sorted insertions of two children with distinct sort keys commute. -/
theorem orderedInsert_comm (x y : Child) (hxy : childCode x ≠ childCode y) :
    ∀ l : List Child,
      List.orderedInsert childLe x (List.orderedInsert childLe y l) =
        List.orderedInsert childLe y (List.orderedInsert childLe x l)
  | [] => by
    simp only [List.orderedInsert]
    by_cases h3 : childLe x y
    · have h4 : ¬ childLe y x := fun h4 => hxy (childCode_eq_of_le_le h3 h4)
      rw [if_pos h3, if_neg h4]
    · have h4 : childLe y x := (childLe_total x y).resolve_left h3
      rw [if_neg h3, if_pos h4]
  | a :: l => by
    by_cases h1 : childLe y a <;> by_cases h2 : childLe x a
    · by_cases h3 : childLe x y
      · have h4 : ¬ childLe y x := fun h4 => hxy (childCode_eq_of_le_le h3 h4)
        simp [List.orderedInsert, h1, h2, h3, h4]
      · have h4 : childLe y x := (childLe_total x y).resolve_left h3
        simp [List.orderedInsert, h1, h2, h3, h4]
    · have h3 : ¬ childLe x y := fun h3 => h2 (childLe_trans h3 h1)
      have h4 : childLe y x := (childLe_total x y).resolve_left h3
      simp [List.orderedInsert, h1, h2, h3, h4]
    · have h4 : ¬ childLe y x := fun h4 => h1 (childLe_trans h4 h2)
      have h3 : childLe x y := (childLe_total x y).resolve_right h4
      simp [List.orderedInsert, h1, h2, h3, h4]
    · simp [List.orderedInsert, h1, h2, orderedInsert_comm x y hxy l]

/-- A list all of whose elements satisfy the predicate is its own
`takeWhile`. -/
theorem takeWhile_all {α : Type} (p : α → Bool) :
    ∀ l : List α, l.all p = true → l.takeWhile p = l
  | [], _ => rfl
  | a :: l, h => by
    rw [List.all_cons, Bool.and_eq_true] at h
    rw [List.takeWhile_cons, if_pos h.1, takeWhile_all p l h.2]

/-- A processed record's full code never coincides with the code of a
group node one level below its slot: dot-free group codes of length
`slot + 1` cannot equal the record's code, whatever its shape. -/
theorem occCode_ne_group (o : Occupation) (g : String)
    (hdot : g.data.all (· ≠ '.') = true)
    (hg : g.data.length = recordSlot o.code + 1) : o.code ≠ g := by
  intro he
  subst he
  have hmain : mainCodeOf o.code = o.code := by
    rw [mainCodeOf]
    rw [takeWhile_all _ o.code.data hdot]
  have hslot : recordSlot o.code = recordSlot o.code := rfl
  have hlen : (mainCodeOf o.code).data.length = o.code.data.length := by rw [hmain]
  simp only [recordSlot] at hg
  by_cases hle : (mainCodeOf o.code).length ≤ 3
  · rw [if_pos hle] at hg
    have : (mainCodeOf o.code).length = (mainCodeOf o.code).data.length := rfl
    omega
  · rw [if_neg hle] at hg
    by_cases h4 : (mainCodeOf o.code).length = 4
    · rw [if_pos h4] at hg
      have : (mainCodeOf o.code).length = (mainCodeOf o.code).data.length := rfl
      omega
    · rw [if_neg h4] at hg
      have : (mainCodeOf o.code).length = (mainCodeOf o.code).data.length := rfl
      omega

/-- A skipped record leaves the sorted-insertion tree unchanged too. -/
theorem insertOccupationSorted_of_skipped (s : List Child) (o : Occupation)
    (h : insertedQ o.code = false) : insertOccupationSorted s o = s := by
  rw [insertedQ, Bool.and_eq_false_iff] at h
  simp only [insertOccupationSorted]
  rcases h with h | h
  · rw [if_pos (by simpa using h)]
  · by_cases hc : (o.code == "") = true
    · rw [if_pos hc]
    · rw [if_neg hc, if_pos (by simpa using h)]

/-- Two in-place updates of the same group compose. -/
theorem updateFirstGroup_comp (code : String) (f g : List Child → List Child) :
    ∀ cs, updateFirstGroup code f (updateFirstGroup code g cs) =
      updateFirstGroup code (fun x => f (g x)) cs
  | [] => rfl
  | Child.group c n gcs :: rest => by
    by_cases hc : (c == code) = true
    · simp [updateFirstGroup, hc]
    · simp [updateFirstGroup, hc, updateFirstGroup_comp code f g rest]
  | Child.occ o :: rest => by
    simp [updateFirstGroup, updateFirstGroup_comp code f g rest]

/-- In-place updates of two different group codes commute. -/
theorem updateFirstGroup_comm_ne (c₁ c₂ : String) (hne : c₁ ≠ c₂)
    (f g : List Child → List Child) :
    ∀ cs, updateFirstGroup c₁ f (updateFirstGroup c₂ g cs) =
      updateFirstGroup c₂ g (updateFirstGroup c₁ f cs)
  | [] => rfl
  | Child.group c n gcs :: rest => by
    by_cases h1 : (c == c₁) = true
    · have hcc : c = c₁ := beq_iff_eq.mp h1
      have h2 : (c == c₂) = false :=
        beq_eq_false_iff_ne.mpr fun he => hne (hcc.symm.trans he)
      simp [updateFirstGroup, h1, h2]
    · by_cases h2 : (c == c₂) = true
      · simp [updateFirstGroup, h1, h2]
      · simp [updateFirstGroup, h1, h2,
          updateFirstGroup_comm_ne c₁ c₂ hne f g rest]
  | Child.occ o :: rest => by
    simp [updateFirstGroup, updateFirstGroup_comm_ne c₁ c₂ hne f g rest]

/-- Group-code presence after a sorted insertion. -/
theorem hasGroup_orderedInsert (x : Child) (c : String) :
    ∀ cs, hasGroup (List.orderedInsert childLe x cs) c =
      ((match x with | .group c' _ _ => c' == c | .occ _ => false) ||
        hasGroup cs c)
  | [] => by rw [List.orderedInsert]; exact hasGroup_cons x [] c
  | a :: cs => by
    rw [List.orderedInsert]
    by_cases hle : childLe x a
    · rw [if_pos hle, hasGroup_cons, hasGroup_cons]
    · rw [if_neg hle, hasGroup_cons, hasGroup_orderedInsert x c cs,
        hasGroup_cons]
      exact Bool.or_left_comm _ _ _

/-- Updating a freshly sorted-inserted group is the same as inserting the
updated group, when no group with that code was present. -/
theorem updateFirstGroup_orderedInsert_self (code name : String)
    (f : List Child → List Child) (X : List Child) :
    ∀ cs, hasGroup cs code = false →
      updateFirstGroup code f
          (List.orderedInsert childLe (.group code name X) cs) =
        List.orderedInsert childLe (.group code name (f X)) cs
  | [], _ => by
    rw [List.orderedInsert, List.orderedInsert]
    simp [updateFirstGroup]
  | a :: cs, h => by
    have h' : hasGroup cs code = false := by
      rw [hasGroup_cons] at h
      exact (Bool.or_eq_false_iff.mp h).2
    rw [List.orderedInsert, List.orderedInsert]
    by_cases hle : childLe (Child.group code name X) a
    · have hle' : childLe (Child.group code name (f X)) a := hle
      rw [if_pos hle, if_pos hle']
      simp [updateFirstGroup]
    · have hle' : ¬ childLe (Child.group code name (f X)) a := hle
      rw [if_neg hle, if_neg hle']
      cases a with
      | occ o =>
        rw [updateFirstGroup,
          updateFirstGroup_orderedInsert_self code name f X cs h']
      | group ca na ga =>
        have hca : (ca == code) = false := by
          rw [hasGroup_cons] at h
          exact (Bool.or_eq_false_iff.mp h).1
        rw [updateFirstGroup, if_neg (by simp [hca]),
          updateFirstGroup_orderedInsert_self code name f X cs h']

/-- An in-place group update commutes with the sorted insertion of any
child that is not a group node carrying the updated code. -/
theorem updateFirstGroup_orderedInsert_ne (code : String)
    (f : List Child → List Child) (x : Child)
    (hx : ∀ n g, x ≠ Child.group code n g) :
    ∀ cs, updateFirstGroup code f (List.orderedInsert childLe x cs) =
      List.orderedInsert childLe x (updateFirstGroup code f cs)
  | [] => by
    cases x with
    | occ o => simp [List.orderedInsert, updateFirstGroup]
    | group c n g =>
      have hc : (c == code) = false :=
        beq_eq_false_iff_ne.mpr fun he => hx n g (by rw [he])
      simp [List.orderedInsert, updateFirstGroup, hc]
  | a :: cs => by
    have IH := updateFirstGroup_orderedInsert_ne code f x hx cs
    by_cases hle : childLe x a
    · cases a with
      | occ o =>
        cases x with
        | occ o' => simp [updateFirstGroup, List.orderedInsert, hle]
        | group c n g =>
          have hc : (c == code) = false :=
            beq_eq_false_iff_ne.mpr fun he => hx n g (by rw [he])
          simp [updateFirstGroup, List.orderedInsert, hc, hle]
      | group ca na ga =>
        by_cases hca : (ca == code) = true
        · have hle2 : childLe x (Child.group ca na (f ga)) := hle
          cases x with
          | occ o' =>
            simp [updateFirstGroup, List.orderedInsert, hca, hle, hle2]
          | group c n g =>
            have hc : (c == code) = false :=
              beq_eq_false_iff_ne.mpr fun he => hx n g (by rw [he])
            simp [updateFirstGroup, List.orderedInsert, hca, hc, hle, hle2]
        · cases x with
          | occ o' =>
            simp [updateFirstGroup, List.orderedInsert, hca, hle]
          | group c n g =>
            have hc : (c == code) = false :=
              beq_eq_false_iff_ne.mpr fun he => hx n g (by rw [he])
            simp [updateFirstGroup, List.orderedInsert, hca, hc, hle]
    · cases a with
      | occ o =>
        cases x with
        | occ o' => simp [updateFirstGroup, List.orderedInsert, hle, IH]
        | group c n g =>
          have hc : (c == code) = false :=
            beq_eq_false_iff_ne.mpr fun he => hx n g (by rw [he])
          simp [updateFirstGroup, List.orderedInsert, hc, hle, IH]
      | group ca na ga =>
        by_cases hca : (ca == code) = true
        · have hle2 : ¬ childLe x (Child.group ca na (f ga)) := hle
          cases x with
          | occ o' =>
            simp [updateFirstGroup, List.orderedInsert, hca, hle, hle2, IH]
          | group c n g =>
            have hc : (c == code) = false :=
              beq_eq_false_iff_ne.mpr fun he => hx n g (by rw [he])
            simp [updateFirstGroup, List.orderedInsert, hca, hc, hle, hle2, IH]
        · cases x with
          | occ o' =>
            simp [updateFirstGroup, List.orderedInsert, hca, hle, IH]
          | group c n g =>
            have hc : (c == code) = false :=
              beq_eq_false_iff_ne.mpr fun he => hx n g (by rw [he])
            simp [updateFirstGroup, List.orderedInsert, hca, hc, hle, IH]

/-- Two sorted upserts of the same group code compose. -/
theorem upsertGroupSorted_comp (cs : List Child) (code name : String)
    (f g : List Child → List Child) :
    upsertGroupSorted (upsertGroupSorted cs code name g) code name f =
      upsertGroupSorted cs code name (fun x => f (g x)) := by
  by_cases h : hasGroup cs code = true
  · simp only [upsertGroupSorted, hasGroup_updateFirstGroup, h, if_true]
    exact updateFirstGroup_comp code f g cs
  · have h' : hasGroup cs code = false := Bool.eq_false_iff.mpr h
    simp only [upsertGroupSorted, hasGroup_orderedInsert, h',
      beq_self_eq_true, Bool.or_false, Bool.false_eq_true, if_false, if_true]
    exact updateFirstGroup_orderedInsert_self code name f (g []) cs h'

/-- Sorted upserts of two different group codes commute. -/
theorem upsertGroupSorted_comm_ne (c₁ c₂ n₁ n₂ : String) (hne : c₁ ≠ c₂)
    (f g : List Child → List Child) (cs : List Child) :
    upsertGroupSorted (upsertGroupSorted cs c₂ n₂ g) c₁ n₁ f =
      upsertGroupSorted (upsertGroupSorted cs c₁ n₁ f) c₂ n₂ g := by
  have hbeq : (c₂ == c₁) = false := beq_eq_false_iff_ne.mpr (Ne.symm hne)
  have hbeq' : (c₁ == c₂) = false := beq_eq_false_iff_ne.mpr hne
  have hx₁ : ∀ n g', Child.group c₂ n₂ (g []) ≠ Child.group c₁ n g' := by
    intro n g' he
    injection he with e1 e2 e3
    exact hne e1.symm
  have hx₂ : ∀ n g', Child.group c₁ n₁ (f []) ≠ Child.group c₂ n g' := by
    intro n g' he
    injection he with e1 e2 e3
    exact hne e1
  by_cases h1 : hasGroup cs c₁ = true <;> by_cases h2 : hasGroup cs c₂ = true
  · simp only [upsertGroupSorted, hasGroup_updateFirstGroup, h1, h2, if_true]
    exact updateFirstGroup_comm_ne c₁ c₂ hne f g cs
  · have h2' : hasGroup cs c₂ = false := Bool.eq_false_iff.mpr h2
    simp only [upsertGroupSorted, hasGroup_updateFirstGroup,
      hasGroup_orderedInsert, h1, h2', hbeq, Bool.false_or, Bool.or_false,
      Bool.false_eq_true, if_false, if_true]
    exact updateFirstGroup_orderedInsert_ne c₁ f (Child.group c₂ n₂ (g []))
      hx₁ cs
  · have h1' : hasGroup cs c₁ = false := Bool.eq_false_iff.mpr h1
    simp only [upsertGroupSorted, hasGroup_updateFirstGroup,
      hasGroup_orderedInsert, h1', h2, hbeq', Bool.false_or, Bool.or_false,
      Bool.false_eq_true, if_false, if_true]
    exact (updateFirstGroup_orderedInsert_ne c₂ g (Child.group c₁ n₁ (f []))
      hx₂ cs).symm
  · have h1' : hasGroup cs c₁ = false := Bool.eq_false_iff.mpr h1
    have h2' : hasGroup cs c₂ = false := Bool.eq_false_iff.mpr h2
    simp only [upsertGroupSorted, hasGroup_orderedInsert, h1', h2', hbeq,
      hbeq', Bool.false_or, Bool.or_false, Bool.false_eq_true, if_false]
    exact orderedInsert_comm (Child.group c₁ n₁ (f []))
      (Child.group c₂ n₂ (g [])) hne cs

/-- A sorted upsert commutes with the sorted insertion of a child that is
not a group node carrying the upserted code and whose sort key differs
from that code. -/
theorem upsertGroupSorted_orderedInsert_comm (code name : String)
    (f : List Child → List Child) (x : Child)
    (hx : ∀ n g, x ≠ Child.group code n g) (hkey : childCode x ≠ code)
    (cs : List Child) :
    upsertGroupSorted (List.orderedInsert childLe x cs) code name f =
      List.orderedInsert childLe x (upsertGroupSorted cs code name f) := by
  by_cases h : hasGroup cs code = true
  · cases x with
    | occ o =>
      simp only [upsertGroupSorted, hasGroup_orderedInsert, h, Bool.false_or,
        if_true]
      exact updateFirstGroup_orderedInsert_ne code f (Child.occ o) hx cs
    | group c' n' g' =>
      have hc : (c' == code) = false :=
        beq_eq_false_iff_ne.mpr fun he => hx n' g' (by rw [he])
      simp only [upsertGroupSorted, hasGroup_orderedInsert, h, hc,
        Bool.false_or, if_true]
      exact updateFirstGroup_orderedInsert_ne code f (Child.group c' n' g')
        hx cs
  · have h' : hasGroup cs code = false := Bool.eq_false_iff.mpr h
    have hne : childCode (Child.group code name (f [])) ≠ childCode x :=
      fun he => hkey he.symm
    cases x with
    | occ o =>
      simp only [upsertGroupSorted, hasGroup_orderedInsert, h', Bool.false_or,
        Bool.false_eq_true, if_false]
      exact orderedInsert_comm _ _ hne cs
    | group c' n' g' =>
      have hc : (c' == code) = false :=
        beq_eq_false_iff_ne.mpr fun he => hx n' g' (by rw [he])
      simp only [upsertGroupSorted, hasGroup_orderedInsert, h', hc,
        Bool.false_or, Bool.false_eq_true, if_false]
      exact orderedInsert_comm _ _ hne cs

/-- Character data of `jsCharAt0`. -/
theorem jsCharAt0_data (s : String) : (jsCharAt0 s).data = s.data.take 1 := rfl

/-- Character data of `jsSubstringTo`. -/
theorem jsSubstringTo_data (s : String) (n : Nat) :
    (jsSubstringTo s n).data = s.data.take n := rfl

/-- The insertion path of a processed record has the path shape at the
root level. -/
theorem pathShape_pathOf (code : String) (hq : insertedQ code = true) :
    pathShape code 0 (pathOf code) := by
  rw [insertedQ, Bool.and_eq_true, Bool.not_eq_true', Bool.not_eq_true'] at hq
  have hmne' : mainCodeOf code ≠ "" := beq_eq_false_iff_ne.mp hq.2
  have hdl : (mainCodeOf code).length = (mainCodeOf code).data.length := rfl
  have hpos : 0 < (mainCodeOf code).data.length :=
    List.length_pos.mpr fun hnil => hmne' (stringDataEq (by rw [hnil]))
  have hj1 : (jsCharAt0 (mainCodeOf code)).data.length = 1 := by
    rw [jsCharAt0_data, List.length_take]
    omega
  have hs2 : (jsSubstringTo (mainCodeOf code) 2).data.length =
      min 2 (mainCodeOf code).data.length := by
    rw [jsSubstringTo_data, List.length_take]
  have hs3 : (jsSubstringTo (mainCodeOf code) 3).data.length =
      min 3 (mainCodeOf code).data.length := by
    rw [jsSubstringTo_data, List.length_take]
  have hd1 : (jsCharAt0 (mainCodeOf code)).data.all (· ≠ '.') = true :=
    take_dotFree 1 code
  have hd2 : (jsSubstringTo (mainCodeOf code) 2).data.all (· ≠ '.') = true :=
    take_dotFree 2 code
  have hd3 : (jsSubstringTo (mainCodeOf code) 3).data.all (· ≠ '.') = true :=
    take_dotFree 3 code
  have hdm : (mainCodeOf code).data.all (· ≠ '.') = true := mainCode_dotFree code
  have hl1 : (jsCharAt0 (mainCodeOf code)).length =
      (jsCharAt0 (mainCodeOf code)).data.length := rfl
  have hl2 : (jsSubstringTo (mainCodeOf code) 2).length =
      (jsSubstringTo (mainCodeOf code) 2).data.length := rfl
  have hl3 : (jsSubstringTo (mainCodeOf code) 3).length =
      (jsSubstringTo (mainCodeOf code) 3).data.length := rfl
  have hn1 : Occupations.getMajorGroupName (jsCharAt0 (mainCodeOf code)) =
      levelName (jsCharAt0 (mainCodeOf code)) := by
    rw [levelName, if_pos (by omega : (jsCharAt0 (mainCodeOf code)).length = 1)]
  by_cases h1 : (mainCodeOf code).length = 1
  · rw [pathOf, if_pos h1]
    dsimp only [pathShape]
    refine ⟨hj1, hd1, hn1, ?_⟩
    simp only [recordSlot]
    rw [if_pos (by omega : (mainCodeOf code).length ≤ 3)]
    exact h1
  · by_cases h2 : (mainCodeOf code).length = 2
    · have hj2 : (jsSubstringTo (mainCodeOf code) 2).data.length = 2 := by omega
      have hn2 : Occupations.getSubMajorGroupName
          (jsSubstringTo (mainCodeOf code) 2) =
          levelName (jsSubstringTo (mainCodeOf code) 2) := by
        rw [levelName, if_neg (by omega), if_pos (by omega :
          (jsSubstringTo (mainCodeOf code) 2).length = 2)]
      rw [pathOf, if_neg h1, if_pos h2]
      dsimp only [pathShape]
      refine ⟨hj1, hd1, hn1, hj2, hd2, hn2, ?_⟩
      simp only [recordSlot]
      rw [if_pos (by omega : (mainCodeOf code).length ≤ 3)]
      exact h2
    · have hge3 : 3 ≤ (mainCodeOf code).length := by omega
      have hj2 : (jsSubstringTo (mainCodeOf code) 2).data.length = 2 := by omega
      have hj3 : (jsSubstringTo (mainCodeOf code) 3).data.length = 3 := by omega
      have hn2 : Occupations.getSubMajorGroupName
          (jsSubstringTo (mainCodeOf code) 2) =
          levelName (jsSubstringTo (mainCodeOf code) 2) := by
        rw [levelName, if_neg (by omega), if_pos (by omega :
          (jsSubstringTo (mainCodeOf code) 2).length = 2)]
      have hn3 : Occupations.getMinorGroupName
          (jsSubstringTo (mainCodeOf code) 3) =
          levelName (jsSubstringTo (mainCodeOf code) 3) := by
        rw [levelName, if_neg (by omega), if_neg (by omega), if_pos (by omega :
          (jsSubstringTo (mainCodeOf code) 3).length = 3)]
      by_cases h4 : (mainCodeOf code).length = 4
      · have hn4 : Occupations.getUnitGroupName (mainCodeOf code) =
            levelName (mainCodeOf code) := by
          rw [levelName, if_neg (by omega), if_neg (by omega), if_neg (by omega)]
        rw [pathOf, if_neg h1, if_neg h2, if_pos h4]
        dsimp only [pathShape]
        refine ⟨hj1, hd1, hn1, hj2, hd2, hn2, hj3, hd3, hn3, by omega, hdm,
          hn4, ?_⟩
        simp only [recordSlot]
        rw [if_neg (by omega : ¬ (mainCodeOf code).length ≤ 3), if_pos h4]
      · rw [pathOf, if_neg h1, if_neg h2, if_neg h4]
        dsimp only [pathShape]
        refine ⟨hj1, hd1, hn1, hj2, hd2, hn2, hj3, hd3, hn3, ?_⟩
        simp only [recordSlot]
        by_cases hle3 : (mainCodeOf code).length ≤ 3
        · rw [if_pos hle3]
          omega
        · rw [if_neg hle3, if_neg h4]

/-- `insertOccupationSorted` acts along the record's insertion path. -/
theorem insertOccupationSorted_eq_path (s : List Child) (o : Occupation)
    (hq : insertedQ o.code = true) :
    insertOccupationSorted s o = pathInsertS o (pathOf o.code) s := by
  rw [insertedQ, Bool.and_eq_true, Bool.not_eq_true', Bool.not_eq_true'] at hq
  obtain ⟨hcne, hmne⟩ := hq
  have hmne' : mainCodeOf o.code ≠ "" := beq_eq_false_iff_ne.mp hmne
  have hdl : (mainCodeOf o.code).length = (mainCodeOf o.code).data.length := rfl
  have hpos : 0 < (mainCodeOf o.code).data.length :=
    List.length_pos.mpr fun hnil => hmne' (stringDataEq (by rw [hnil]))
  have hs2 : (jsSubstringTo (mainCodeOf o.code) 2).length =
      min 2 (mainCodeOf o.code).length := jsSubstringTo_length _ 2
  have hs3 : (jsSubstringTo (mainCodeOf o.code) 3).length =
      min 3 (mainCodeOf o.code).length := jsSubstringTo_length _ 3
  by_cases h1 : (mainCodeOf o.code).length = 1
  · have h2 : ((jsSubstringTo (mainCodeOf o.code) 2).length == 2) = false :=
      beq_eq_false_iff_ne.mpr (by omega)
    simp [insertOccupationSorted, pathOf, pathInsertS, hcne, hmne, h1, h2]
  · by_cases h2 : (mainCodeOf o.code).length = 2
    · have h2t : ((jsSubstringTo (mainCodeOf o.code) 2).length == 2) = true :=
        beq_iff_eq.mpr (by omega)
      have h3f : ((jsSubstringTo (mainCodeOf o.code) 3).length == 3) = false :=
        beq_eq_false_iff_ne.mpr (by omega)
      simp [insertOccupationSorted, pathOf, pathInsertS, hcne, hmne, h1, h2,
        h2t, h3f]
    · by_cases h4 : (mainCodeOf o.code).length = 4
      · have h2t : ((jsSubstringTo (mainCodeOf o.code) 2).length == 2) = true :=
          beq_iff_eq.mpr (by omega)
        have h3t : ((jsSubstringTo (mainCodeOf o.code) 3).length == 3) = true :=
          beq_iff_eq.mpr (by omega)
        simp [insertOccupationSorted, pathOf, pathInsertS, hcne, hmne, h1, h2,
          h4, h2t, h3t]
      · have hge3 : 3 ≤ (mainCodeOf o.code).length := by omega
        have h2t : ((jsSubstringTo (mainCodeOf o.code) 2).length == 2) = true :=
          beq_iff_eq.mpr (by omega)
        have h3t : ((jsSubstringTo (mainCodeOf o.code) 3).length == 3) = true :=
          beq_iff_eq.mpr (by omega)
        have h4f : ((mainCodeOf o.code).length == 4) = false :=
          beq_eq_false_iff_ne.mpr h4
        simp [insertOccupationSorted, pathOf, pathInsertS, hcne, hmne, h1, h2,
          h4, h2t, h3t, h4f]

/-- `insertOccupation` acts along the record's insertion path. -/
theorem insertOccupation_eq_path (s : List Child) (o : Occupation)
    (hq : insertedQ o.code = true) :
    insertOccupation s o = pathInsertU o (pathOf o.code) s := by
  rw [insertedQ, Bool.and_eq_true, Bool.not_eq_true', Bool.not_eq_true'] at hq
  obtain ⟨hcne, hmne⟩ := hq
  have hmne' : mainCodeOf o.code ≠ "" := beq_eq_false_iff_ne.mp hmne
  have hdl : (mainCodeOf o.code).length = (mainCodeOf o.code).data.length := rfl
  have hpos : 0 < (mainCodeOf o.code).data.length :=
    List.length_pos.mpr fun hnil => hmne' (stringDataEq (by rw [hnil]))
  have hs2 : (jsSubstringTo (mainCodeOf o.code) 2).length =
      min 2 (mainCodeOf o.code).length := jsSubstringTo_length _ 2
  have hs3 : (jsSubstringTo (mainCodeOf o.code) 3).length =
      min 3 (mainCodeOf o.code).length := jsSubstringTo_length _ 3
  by_cases h1 : (mainCodeOf o.code).length = 1
  · have h2 : ((jsSubstringTo (mainCodeOf o.code) 2).length == 2) = false :=
      beq_eq_false_iff_ne.mpr (by omega)
    simp [insertOccupation, pathOf, pathInsertU, hcne, hmne, h1, h2]
  · by_cases h2 : (mainCodeOf o.code).length = 2
    · have h2t : ((jsSubstringTo (mainCodeOf o.code) 2).length == 2) = true :=
        beq_iff_eq.mpr (by omega)
      have h3f : ((jsSubstringTo (mainCodeOf o.code) 3).length == 3) = false :=
        beq_eq_false_iff_ne.mpr (by omega)
      simp [insertOccupation, pathOf, pathInsertU, hcne, hmne, h1, h2,
        h2t, h3f]
    · by_cases h4 : (mainCodeOf o.code).length = 4
      · have h2t : ((jsSubstringTo (mainCodeOf o.code) 2).length == 2) = true :=
          beq_iff_eq.mpr (by omega)
        have h3t : ((jsSubstringTo (mainCodeOf o.code) 3).length == 3) = true :=
          beq_iff_eq.mpr (by omega)
        simp [insertOccupation, pathOf, pathInsertU, hcne, hmne, h1, h2,
          h4, h2t, h3t]
      · have hge3 : 3 ≤ (mainCodeOf o.code).length := by omega
        have h2t : ((jsSubstringTo (mainCodeOf o.code) 2).length == 2) = true :=
          beq_iff_eq.mpr (by omega)
        have h3t : ((jsSubstringTo (mainCodeOf o.code) 3).length == 3) = true :=
          beq_iff_eq.mpr (by omega)
        have h4f : ((mainCodeOf o.code).length == 4) = false :=
          beq_eq_false_iff_ne.mpr h4
        simp [insertOccupation, pathOf, pathInsertU, hcne, hmne, h1, h2,
          h4, h2t, h3t, h4f]

/-- Sorted path insertions of two records with different codes commute,
for any two paths sharing the path shape at a common level. -/
theorem pathInsertS_comm (a b : Occupation) (hab : a.code ≠ b.code) :
    ∀ (pa : List (String × String)) (L : Nat) (pb : List (String × String))
      (cs : List Child), pathShape a.code L pa → pathShape b.code L pb →
      pathInsertS a pa (pathInsertS b pb cs) =
        pathInsertS b pb (pathInsertS a pa cs)
  | [], L, [], cs, ha, hb => by
    dsimp only [pathInsertS]
    exact orderedInsert_comm (.occ a) (.occ b) hab cs
  | [], L, g :: rb, cs, ha, hb => by
    dsimp only [pathInsertS]
    have ha' : recordSlot a.code = L := ha
    exact (upsertGroupSorted_orderedInsert_comm g.1 g.2 (pathInsertS b rb)
      (Child.occ a) (fun n g' he => Child.noConfusion he)
      (occCode_ne_group a g.1 hb.2.1 (by rw [hb.1, ha'])) cs).symm
  | g :: ra, L, [], cs, ha, hb => by
    dsimp only [pathInsertS]
    have hb' : recordSlot b.code = L := hb
    exact upsertGroupSorted_orderedInsert_comm g.1 g.2 (pathInsertS a ra)
      (Child.occ b) (fun n g' he => Child.noConfusion he)
      (occCode_ne_group b g.1 ha.2.1 (by rw [ha.1, hb'])) cs
  | ga :: ra, L, gb :: rb, cs, ha, hb => by
    dsimp only [pathInsertS]
    by_cases hgg : ga.1 = gb.1
    · have hname : ga.2 = gb.2 := by
        rw [ha.2.2.1, hb.2.2.1, hgg]
      rw [hgg, hname, upsertGroupSorted_comp, upsertGroupSorted_comp]
      congr 1
      funext x
      exact pathInsertS_comm a b hab ra (L + 1) rb x ha.2.2.2 hb.2.2.2
    · exact upsertGroupSorted_comm_ne ga.1 gb.1 ga.2 gb.2 hgg
        (pathInsertS a ra) (pathInsertS b rb) cs

/-- Sorted insertions of two records with different codes commute. -/
theorem insertOccupationSorted_comm (t : List Child) (a b : Occupation)
    (hab : a.code ≠ b.code) :
    insertOccupationSorted (insertOccupationSorted t a) b =
      insertOccupationSorted (insertOccupationSorted t b) a := by
  by_cases hqa : insertedQ a.code = true
  · by_cases hqb : insertedQ b.code = true
    · rw [insertOccupationSorted_eq_path t a hqa,
        insertOccupationSorted_eq_path (pathInsertS a (pathOf a.code) t) b hqb,
        insertOccupationSorted_eq_path t b hqb,
        insertOccupationSorted_eq_path (pathInsertS b (pathOf b.code) t) a hqa]
      exact pathInsertS_comm b a (fun he => hab he.symm) (pathOf b.code) 0
        (pathOf a.code) t (pathShape_pathOf b.code hqb)
        (pathShape_pathOf a.code hqa)
    · have hqb' : insertedQ b.code = false := Bool.eq_false_iff.mpr hqb
      rw [insertOccupationSorted_of_skipped (insertOccupationSorted t a) b hqb',
        insertOccupationSorted_of_skipped t b hqb']
  · have hqa' : insertedQ a.code = false := Bool.eq_false_iff.mpr hqa
    rw [insertOccupationSorted_of_skipped t a hqa',
      insertOccupationSorted_of_skipped (insertOccupationSorted t b) a hqa']

/-- A key-preserving transformation commutes with sorted insertion. -/
theorem orderedInsert_map_keyfix (g : Child → Child)
    (hkey : ∀ c, childCode (g c) = childCode c) (x : Child) :
    ∀ l, (List.orderedInsert childLe x l).map g =
      List.orderedInsert childLe (g x) (l.map g)
  | [] => rfl
  | a :: l => by
    by_cases hle : childLe x a
    · have hle' : childLe (g x) (g a) := by
        unfold childLe
        rw [hkey, hkey]
        exact hle
      simp [List.orderedInsert, hle, hle']
    · have hle' : ¬ childLe (g x) (g a) := by
        unfold childLe
        rw [hkey, hkey]
        exact hle
      simp [List.orderedInsert, hle, hle',
        orderedInsert_map_keyfix g hkey x l]

/-- A key-preserving transformation commutes with the stable sort. -/
theorem insertionSort_map_keyfix (g : Child → Child)
    (hkey : ∀ c, childCode (g c) = childCode c) :
    ∀ l : List Child,
      (l.insertionSort childLe).map g = (l.map g).insertionSort childLe
  | [] => rfl
  | a :: l => by
    rw [List.insertionSort, List.map_cons, List.insertionSort,
      ← insertionSort_map_keyfix g hkey l,
      orderedInsert_map_keyfix g hkey a]

/-- The recursive sort pass maps over a sorted insertion. -/
theorem sortChildList_orderedInsert (x : Child) (l : List Child) :
    sortChildList (List.orderedInsert childLe x l) =
      List.orderedInsert childLe (sortChildren x) (sortChildList l) := by
  rw [sortChildList_eq_map, sortChildList_eq_map,
    orderedInsert_map_keyfix sortChildren childCode_sortChildren x l]

/-- Recursively sorting a group node normalises its children: the
recurse-then-sort and sort-then-recurse orders agree. -/
theorem sortChildren_group_norm (c n : String) (cs : List Child) :
    sortChildren (.group c n cs) = .group c n (normChildren cs) := by
  rw [sortChildren, normChildren, sortChildList_eq_map, sortChildList_eq_map,
    ← insertionSort_map_keyfix sortChildren childCode_sortChildren cs]

/-- Appending a child whose key is fresh and sorting equals sorted
insertion into the sorted list. -/
theorem insertionSort_append_fresh (x : Child) :
    ∀ cs, (∀ c ∈ cs, childCode c ≠ childCode x) →
      (cs ++ [x]).insertionSort childLe =
        List.orderedInsert childLe x (cs.insertionSort childLe)
  | [], _ => rfl
  | a :: cs, h => by
    rw [List.cons_append, List.insertionSort, List.insertionSort,
      insertionSort_append_fresh x cs
        (fun c hc => h c (List.mem_cons_of_mem a hc)),
      orderedInsert_comm a x (h a (List.mem_cons_self a cs))
        (cs.insertionSort childLe)]

/-- Normalising after a fresh-key push is sorted insertion of the
recursively sorted child into the normalised list. -/
theorem normChildren_append_fresh (x : Child) (cs : List Child)
    (h : ∀ c ∈ cs, childCode c ≠ childCode x) :
    normChildren (cs ++ [x]) =
      List.orderedInsert childLe (sortChildren x) (normChildren cs) := by
  rw [normChildren, insertionSort_append_fresh x cs h,
    sortChildList_orderedInsert x (cs.insertionSort childLe), normChildren]

/-- Group-code presence is permutation-invariant. -/
theorem hasGroup_perm {l₁ l₂ : List Child} (h : l₁.Perm l₂) (c : String) :
    hasGroup l₁ c = hasGroup l₂ c := by
  have hiff : hasGroup l₁ c = true ↔ hasGroup l₂ c = true := by
    rw [hasGroup_iff_mem, hasGroup_iff_mem]
    exact (h.filterMap _).mem_iff
  cases hx : hasGroup l₂ c with
  | true => exact hiff.mpr hx
  | false =>
    have h2 : hasGroup l₂ c ≠ true := by
      rw [hx]
      exact Bool.false_ne_true
    exact Bool.eq_false_iff.mpr fun hy => h2 (hiff.mp hy)

/-- `groupPatch` preserves the sort key. -/
theorem groupPatch_key (code : String) (f : List Child → List Child) :
    ∀ ch, childCode (groupPatch code f ch) = childCode ch
  | Child.group c n gcs => by
    rw [groupPatch]
    by_cases hc : (c == code) = true
    · rw [if_pos hc]
      rfl
    · rw [if_neg hc]
  | Child.occ o => rfl

/-- Patching a list without the target code changes nothing. -/
theorem map_groupPatch_id (code : String) (f : List Child → List Child) :
    ∀ cs, hasGroup cs code = false → cs.map (groupPatch code f) = cs
  | [], _ => rfl
  | Child.group c n gcs :: rest, h => by
    have hc : (c == code) = false := by
      rw [hasGroup_cons] at h
      exact (Bool.or_eq_false_iff.mp h).1
    have hrest : hasGroup rest code = false := by
      rw [hasGroup_cons] at h
      exact (Bool.or_eq_false_iff.mp h).2
    rw [List.map_cons, groupPatch, if_neg (by simp [hc]),
      map_groupPatch_id code f rest hrest]
  | Child.occ o :: rest, h => by
    have hrest : hasGroup rest code = false := by
      rw [hasGroup_cons] at h
      exact (Bool.or_eq_false_iff.mp h).2
    rw [List.map_cons, groupPatch, map_groupPatch_id code f rest hrest]

/-- Under unique sibling group codes, the in-place update of the first
matching group is the elementwise patch. -/
theorem updateFirstGroup_eq_map (code : String) (f : List Child → List Child) :
    ∀ cs, (groupCodes cs).Nodup →
      updateFirstGroup code f cs = cs.map (groupPatch code f)
  | [], _ => rfl
  | Child.group c n gcs :: rest, hnd => by
    have h2 : (c :: groupCodes rest).Nodup := hnd
    rw [List.nodup_cons] at h2
    by_cases hc : (c == code) = true
    · have hcc : c = code := beq_iff_eq.mp hc
      have hrest : hasGroup rest code = false := by
        rw [← hcc]
        exact Bool.eq_false_iff.mpr fun hy =>
          h2.1 ((hasGroup_iff_mem rest c).mp hy)
      rw [updateFirstGroup, if_pos hc, List.map_cons, groupPatch, if_pos hc,
        map_groupPatch_id code f rest hrest]
    · rw [updateFirstGroup, if_neg hc, List.map_cons, groupPatch, if_neg hc,
        updateFirstGroup_eq_map code f rest h2.2]
  | Child.occ o :: rest, hnd => by
    have h2 : (groupCodes rest).Nodup := hnd
    rw [updateFirstGroup, List.map_cons, groupPatch,
      updateFirstGroup_eq_map code f rest h2]

/-- Records of a member child are records of the list. -/
theorem subtree_sub (ch : Child) :
    ∀ cs, ch ∈ cs → ∀ o, o ∈ subtreeOccs ch → o ∈ subtreeOccsL cs
  | [], hch, _, _ => absurd hch (List.not_mem_nil ch)
  | a :: cs, hch, o, ho => by
    rw [subtreeOccsL]
    rcases List.mem_cons.mp hch with rfl | h'
    · exact List.mem_append.mpr (Or.inl ho)
    · exact List.mem_append.mpr (Or.inr (subtree_sub ch cs h' o ho))

mutual

/-- Dropping the parent components of a subtree's placements leaves its
records. -/
theorem placements_snd (p : String) : ∀ c : Child,
    (placements p c).map (fun e => e.2) = subtreeOccs c
  | Child.group c n cs => by
    rw [placements, subtreeOccs, placementsL_snd c cs]
  | Child.occ o => rfl

/-- `placements_snd` over a children list. -/
theorem placementsL_snd (p : String) : ∀ l : List Child,
    (placementsL p l).map (fun e => e.2) = subtreeOccsL l
  | [] => rfl
  | ch :: rest => by
    rw [placementsL, subtreeOccsL, List.map_append, placements_snd p ch,
      placementsL_snd p rest]

end

/-- Inserting a processed record adds exactly that record (up to
permutation) to the tree's record multiset. -/
theorem subtreeOccsL_insertOccupation (s : List Child) (o : Occupation)
    (h : insertedQ o.code = true) :
    (subtreeOccsL (insertOccupation s o)).Perm (o :: subtreeOccsL s) := by
  have hp := (placements_insertOccupation s o h).map (fun e => e.2)
  rw [placementsL_snd, List.map_append, placementsL_snd] at hp
  exact hp

/-- The empty list is already normalised. -/
theorem normChildren_nil : normChildren [] = [] := rfl

/-- Core exchange step: normalising after an append-style path insertion
equals the sorted path insertion into the normalised list, for any
well-formed state whose records avoid the inserted record's code. -/
theorem normChildren_pathInsert (o : Occupation) :
    ∀ (p : List (String × String)) (P : String) (cs : List Child),
      WFList P cs → pathShape o.code P.data.length p →
      (∀ o' ∈ subtreeOccsL cs, o'.code ≠ o.code) →
      normChildren (pathInsertU o p cs) = pathInsertS o p (normChildren cs)
  | [], P, cs, hwf, hp, hfresh => by
    dsimp only [pathInsertU, pathInsertS]
    have hslot : recordSlot o.code = P.data.length := hp
    have hkeys : ∀ c ∈ cs, childCode c ≠ childCode (Child.occ o) := by
      intro c hc
      have hwfc : WFChild P c := ((WFList_iff P cs).mp hwf).1 c hc
      cases c with
      | group c' n' gcs' =>
        have hm := (WFChild_group P c' n' gcs').mp hwfc
        exact Ne.symm (occCode_ne_group o c' hm.2.2.1 (by rw [hm.1, hslot]))
      | occ o' =>
        exact hfresh o' (subtree_sub (Child.occ o') cs hc o'
          (List.mem_singleton_self o'))
    rw [normChildren_append_fresh (Child.occ o) cs hkeys]
    rfl
  | g :: rest, P, cs, hwf, hp, hfresh => by
    dsimp only [pathInsertU, pathInsertS]
    have hg : hasGroup (normChildren cs) g.1 = hasGroup cs g.1 := by
      rw [normChildren, hasGroup_sortChildList]
      exact hasGroup_perm (List.perm_insertionSort childLe cs) g.1
    by_cases hhas : hasGroup cs g.1 = true
    · rw [upsertGroup, if_pos hhas, upsertGroupSorted,
        if_pos (by rw [hg]; exact hhas)]
      have hnd : (groupCodes cs).Nodup := ((WFList_iff P cs).mp hwf).2
      have hwfI : WFList P (cs.insertionSort childLe) :=
        WFList_of_perm P (List.perm_insertionSort childLe cs).symm hwf
      have hwfN : WFList P (normChildren cs) :=
        WFList_sortChildList P (cs.insertionSort childLe) hwfI
      have hndN : (groupCodes (normChildren cs)).Nodup :=
        ((WFList_iff P (normChildren cs)).mp hwfN).2
      rw [updateFirstGroup_eq_map g.1 (pathInsertU o rest) cs hnd,
        updateFirstGroup_eq_map g.1 (pathInsertS o rest) (normChildren cs)
          hndN]
      rw [normChildren, normChildren,
        ← insertionSort_map_keyfix (groupPatch g.1 (pathInsertU o rest))
          (groupPatch_key g.1 (pathInsertU o rest)) cs,
        sortChildList_eq_map, sortChildList_eq_map, List.map_map,
        List.map_map]
      apply List.map_congr_left
      intro ch hch
      have hmem : ch ∈ cs :=
        (List.perm_insertionSort childLe cs).subset hch
      show sortChildren (groupPatch g.1 (pathInsertU o rest) ch) =
        groupPatch g.1 (pathInsertS o rest) (sortChildren ch)
      cases ch with
      | occ o' => rfl
      | group c' n' gcs' =>
        have hwfc := (WFChild_group P c' n' gcs').mp
          (((WFList_iff P cs).mp hwf).1 _ hmem)
        by_cases hc : (c' == g.1) = true
        · rw [groupPatch, if_pos hc, sortChildren_group_norm,
            sortChildren_group_norm, groupPatch, if_pos hc,
            normChildren_pathInsert o rest c' gcs' hwfc.2.2.2.2
              (by rw [hwfc.1]; exact hp.2.2.2)
              (fun o' ho' => hfresh o'
                (subtree_sub (Child.group c' n' gcs') cs hmem o' ho'))]
        · rw [groupPatch, if_neg hc, sortChildren_group_norm, groupPatch,
            if_neg hc]
    · rw [upsertGroup, if_neg hhas, upsertGroupSorted,
        if_neg (by rw [hg]; exact hhas)]
      have hkeys : ∀ c ∈ cs,
          childCode c ≠ childCode (Child.group g.1 g.2
            (pathInsertU o rest [])) := by
        intro c hc
        have hwfc : WFChild P c := ((WFList_iff P cs).mp hwf).1 c hc
        cases c with
        | group c' n' gcs' =>
          have hm := (WFChild_group P c' n' gcs').mp hwfc
          intro he
          have hcg : c' = g.1 := he
          exact hhas ((hasGroup_iff_mem cs g.1).mpr (hcg ▸
            List.mem_filterMap.mpr ⟨Child.group c' n' gcs', hc, rfl⟩))
        | occ o' =>
          have hm := (WFChild_occ P o').mp hwfc
          exact occCode_ne_group o' g.1 hp.2.1 (by rw [hp.1, hm.2.2])
      rw [normChildren_append_fresh _ cs hkeys, sortChildren_group_norm,
        normChildren_pathInsert o rest g.1 [] trivial
          (by rw [hp.1]; exact hp.2.2.2) (fun o' ho' => absurd ho'
            (List.not_mem_nil o')),
        normChildren_nil]

/-- Normalising after one record insertion equals the sorted insertion
into the normalised tree, when the record's code is fresh. -/
theorem normChildren_insertOccupation (s : List Child) (o : Occupation)
    (hwf : WFList "" s)
    (hfresh : ∀ o' ∈ subtreeOccsL s, o'.code ≠ o.code) :
    normChildren (insertOccupation s o) =
      insertOccupationSorted (normChildren s) o := by
  by_cases hq : insertedQ o.code = true
  · rw [insertOccupation_eq_path s o hq,
      insertOccupationSorted_eq_path (normChildren s) o hq]
    exact normChildren_pathInsert o (pathOf o.code) "" s hwf
      (pathShape_pathOf o.code hq) hfresh
  · have hq' : insertedQ o.code = false := Bool.eq_false_iff.mpr hq
    rw [insertOccupation_of_skipped s o hq',
      insertOccupationSorted_of_skipped (normChildren s) o hq']

/-- Folding pairwise-distinct records and then normalising equals folding
the sorted insertions over the normalised start state. -/
theorem foldU_foldS : ∀ (l : List Occupation) (s : List Child),
    WFList "" s →
    (∀ o ∈ l, ∀ o' ∈ subtreeOccsL s, o'.code ≠ o.code) →
    l.Pairwise (fun a b => a.code ≠ b.code) →
    normChildren (l.foldl insertOccupation s) =
      l.foldl insertOccupationSorted (normChildren s)
  | [], s, _, _, _ => rfl
  | o :: l, s, hwf, hfresh, hpw => by
    rw [List.foldl_cons, List.foldl_cons,
      ← normChildren_insertOccupation s o hwf
        (hfresh o (List.mem_cons_self o l))]
    have hpw' := List.pairwise_cons.mp hpw
    refine foldU_foldS l (insertOccupation s o)
      (WFList_insertOccupation s o hwf) ?_ hpw'.2
    intro o'' ho'' o' ho'
    by_cases hq : insertedQ o.code = true
    · have hmem := (subtreeOccsL_insertOccupation s o hq).mem_iff.mp ho'
      rcases List.mem_cons.mp hmem with rfl | hmem'
      · exact hpw'.1 o'' ho''
      · exact hfresh o'' (List.mem_cons_of_mem o ho'') o' hmem'
    · have hq' : insertedQ o.code = false := Bool.eq_false_iff.mpr hq
      rw [insertOccupation_of_skipped s o hq'] at ho'
      exact hfresh o'' (List.mem_cons_of_mem o ho'') o' ho'

/-- On pairwise-distinct record codes, `organizeOccupations` is the fold
of the sorted insertions from the empty forest. -/
theorem organize_eq_foldS (occs : List Occupation)
    (hpw : occs.Pairwise (fun a b => a.code ≠ b.code)) :
    organizeOccupations occs = occs.foldl insertOccupationSorted [] := by
  show normChildren (occs.foldl insertOccupation []) = _
  rw [foldU_foldS occs [] trivial
    (fun o _ o' ho' => absurd ho' (List.not_mem_nil o')) hpw,
    normChildren_nil]

/-- Folding sorted insertions of pairwise-distinct records is invariant
under permutation of the records. -/
theorem foldS_perm {l₁ l₂ : List Occupation} (h : l₁.Perm l₂) :
    l₁.Pairwise (fun a b => a.code ≠ b.code) →
    ∀ t : List Child, l₁.foldl insertOccupationSorted t =
      l₂.foldl insertOccupationSorted t := by
  induction h with
  | nil => intro _ _; rfl
  | cons x h ih =>
    intro hpw t
    rw [List.foldl_cons, List.foldl_cons]
    exact ih (List.pairwise_cons.mp hpw).2 _
  | swap x y l =>
    intro hpw t
    rw [List.foldl_cons, List.foldl_cons, List.foldl_cons, List.foldl_cons]
    have hyx : y.code ≠ x.code :=
      (List.pairwise_cons.mp hpw).1 x (List.mem_cons_self x l)
    rw [insertOccupationSorted_comm t y x hyx]
  | trans h₁ h₂ ih₁ ih₂ =>
    intro hpw t
    rw [ih₁ hpw t, ih₂ (hpw.perm h₁ fun {_ _} hne => Ne.symm hne) t]

/-- C8 (counterexample): two records sharing the code `"11"` tie on every
sort key, and the stable sort keeps their insertion order, so swapping
them swaps their order under the `"11"` sub-major group: the two trees
differ. -/
theorem c8_counterexample :
    organizeOccupations [occDupA, occDupB] ≠
      organizeOccupations [occDupB, occDupA] :=
  fun h => absurd (congrArg (placementsL "") h) (by decide)

/-- C8 (amended): when no two records share a code, `organizeOccupations`
is invariant under any permutation of the input records — the output
trees are identical (same codes, names, child order and record
placement).  As stated, for arbitrary record lists, the claim fails:
records with equal codes tie on the sort key, the stable sort preserves
their relative input order, and a permutation that swaps them changes
the tree (see the counterexample). -/
theorem c8_perm_invariant (occs₁ occs₂ : List Occupation)
    (hpw : occs₁.Pairwise (fun a b => a.code ≠ b.code))
    (hperm : occs₁.Perm occs₂) :
    organizeOccupations occs₁ = organizeOccupations occs₂ := by
  rw [organize_eq_foldS occs₁ hpw,
    organize_eq_foldS occs₂ (hpw.perm hperm fun {_ _} hne => Ne.symm hne)]
  exact foldS_perm hperm hpw []

/-- C8 (witness): two records with distinct codes produce the same tree
in either order. -/
theorem c8_witness :
    ([occDev, occDupA]).Pairwise (fun a b => a.code ≠ b.code) ∧
    ([occDev, occDupA]).Perm [occDupA, occDev] ∧
    organizeOccupations [occDev, occDupA] =
      organizeOccupations [occDupA, occDev] :=
  ⟨by decide, by decide,
    c8_perm_invariant [occDev, occDupA] [occDupA, occDev]
      (by decide) (by decide)⟩
